import Mathlib

/-!
Verification development for the JuristMind chat interface
(`src/components/ChatInterface.tsx`, the streaming response parser and
progress-step state machine inside `processMessage`).

The TypeScript source is shallowly embedded below:

* the Signal Detector (`STEP_SIGNALS`, `detectStepsFromChunk`),
* the initial-step construction (`getInitialSteps`),
* the per-turn streaming loop of `processMessage`: the `activateStep` /
  `completeStep` helpers, the per-frame processing of the server-sent-event
  stream, the periodic advancement timer callback, the end-of-stream cleanup,
  the non-streaming fallback, persistence of the final content, and the
  `catch` handler for transport failures.

Strings are handled as `List Char` (one entry per Unicode scalar; the
JavaScript UTF-16 length only feeds the advancement timer's thresholds,
whose guard is proved unreachable below, so the difference is immaterial).
`JSON.parse` is modelled by a JSON parser for the payload shapes the code
inspects: it parses full JSON values (objects, arrays, strings, numbers,
booleans, null, with string escapes) and the embedding extracts the
string-valued `type` / `content` / `answer` fields the code reads; payloads
whose `content`/`answer` field is present but not a string are treated as
carrying no fragment (the surrounding claims only exercise string fields).
`Date.now()` is modelled by a monotone counter threaded through the state.
-/

namespace JuristMind

/-- ASCII lowercasing, modelling the case-insensitive (`/i`) regex flag
(for ASCII-only patterns the JS canonicalisation agrees with ASCII folding). -/
def asciiLower (c : Char) : Char :=
  if 'A' ≤ c ∧ c ≤ 'Z' then Char.ofNat (c.toNat + 32) else c

/-- `.` in a JavaScript regex (without the `s` flag) matches anything except
a newline; a `.*` gap must therefore be newline-free. -/
def noNL (l : List Char) : Bool := l.all (fun c => c ≠ '\n')

/-- After having consumed input up to absolute position `i` of `hay`, can the
literal parts `ps` (separated by `.*` gaps) match in order?  Each part must
occur at some `j ≥ i`, with only non-newline characters between `i` and `j`. -/
def matchFrom (hay : List Char) (i : Nat) : List (List Char) → Bool
  | [] => true
  | p :: ps =>
      (List.range (hay.length + 1)).any fun j =>
        decide (i ≤ j) && noNL ((hay.drop i).take (j - i)) &&
          p.isPrefixOf (hay.drop j) && matchFrom hay (j + p.length) ps

/-- Unanchored test of one regex alternative `p₁.*p₂.*…*pₖ` (the `pᵢ` being
literal fragments) against `hay`: the first part may start anywhere. -/
def seqTest (hay : List Char) : List (List Char) → Bool
  | [] => true
  | p :: ps =>
      (List.range (hay.length + 1)).any fun i =>
        p.isPrefixOf (hay.drop i) && matchFrom hay (i + p.length) ps

/-- Test of a whole pattern (an alternation of literal sequences) against a
chunk, case-insensitively: mirrors `signal.pattern.test(chunk)` for the
patterns of `STEP_SIGNALS`, which are all alternations of literals joined
by `.*`. -/
def patTest (chunk : List Char) (alts : List (List String)) : Bool :=
  alts.any fun alt =>
    seqTest (chunk.map asciiLower) (alt.map fun s => s.data.map asciiLower)

/-- One entry of `STEP_SIGNALS`: a pattern (alternation of `.*`-separated
literal fragments) and the step metadata it maps to. -/
structure StepSignal where
  pattern : List (List String)
  stepId : String
  label : String
  icon : String
  deriving Repr, DecidableEq

/-- The `STEP_SIGNALS` table of the source, with each regex decomposed into
its alternation of literal fragments (`|`-alternatives; `.*` separates the
fragments inside one alternative). -/
def STEP_SIGNALS : List StepSignal :=
  [ { pattern := [["PHASE 1"], ["section", "search"], ["searching", "section"],
        ["verif", "section"]],
      stepId := "sections", label := "Searching statutory sections",
      icon := "sections" },
    { pattern := [["PHASE 2"], ["amendment", "verif"], ["verif", "amendment"]],
      stepId := "amendments", label := "Verifying amendments",
      icon := "verify" },
    { pattern := [["PHASE 3"], ["landmark case"], ["searching", "case"],
        ["case", "search"], ["searched cases"]],
      stepId := "landmark", label := "Searching landmark cases",
      icon := "cases" },
    { pattern := [["PHASE 4"], ["recent case"], ["recent", "decision"],
        ["2020", "2021", "2022"]],
      stepId := "recent", label := "Finding recent decisions",
      icon := "cases" },
    { pattern := [["PHASE 5"], ["legal principle"], ["doctrine"], ["trite law"]],
      stepId := "principles", label := "Analysing legal principles",
      icon := "analysis" },
    { pattern := [["crunching"], ["compiling"], ["assembl"],
        ["structur", "response"], ["writing"]],
      stepId := "writing", label := "Structuring legal analysis",
      icon := "writing" } ]

/-- `detectStepsFromChunk`: walk `STEP_SIGNALS` in declaration order and
collect the `stepId` of every signal whose pattern tests positive. -/
def detectStepsFromChunk (chunk : List Char) : List String :=
  STEP_SIGNALS.foldl
    (fun triggered signal =>
      if patTest chunk signal.pattern then triggered ++ [signal.stepId]
      else triggered)
    []

/-- Step status, `pending → running → done/error`. -/
inductive Status where
  | pending
  | running
  | done
  | error
  deriving Repr, DecidableEq

/-- One `ProcessStep` record (the `icon` union type is embedded as a string). -/
structure ProcessStep where
  id : String
  label : String
  detail : Option String := none
  status : Status
  durationMs : Option Nat := none
  startedAt : Option Nat := none
  icon : String
  deriving Repr, DecidableEq

/-- JavaScript string truthiness of an optional string field
(`undefined` and `""` are falsy). -/
def jsTruthy : Option String → Bool
  | none => false
  | some s => !s.isEmpty

/-- `getInitialSteps(intentHint?)`: five pending steps for a legal intent,
no steps for a `greeting` / `simple_non_law` hint.  (The call site in
`processMessage` always calls it without a hint.) -/
def getInitialSteps (intentHint : Option String) : List ProcessStep :=
  let isLegal := !jsTruthy intentHint ||
    !(["greeting", "simple_non_law"].contains (intentHint.getD ""))
  if !isLegal then []
  else
    [ { id := "sections", label := "Searching statutory sections",
        icon := "sections", status := .pending },
      { id := "amendments", label := "Verifying amendments",
        icon := "verify", status := .pending },
      { id := "landmark", label := "Searching landmark cases",
        icon := "cases", status := .pending },
      { id := "recent", label := "Finding recent decisions",
        icon := "cases", status := .pending },
      { id := "writing", label := "Structuring legal analysis",
        icon := "writing", status := .pending } ]

/-! ### JSON parsing model

`JSON.parse` as used on stream payloads.  A payload either fails to parse
(the `catch` skips the frame) or yields a JSON value from which the code
reads the optional `type`, `content` and `answer` fields. -/

/-- A parsed JSON value.  Numeric values are never read by the code, so
their magnitude is not retained. -/
inductive JVal where
  | jstr (s : List Char)
  | jnum
  | jbool (b : Bool)
  | jnull
  | jobj (fields : List (List Char × JVal))
  | jarr (elems : List JVal)

/-- JSON insignificant whitespace (also the ASCII core of what
JavaScript's `String.prototype.trim` removes). -/
def isJsonWs (c : Char) : Bool := c = ' ' || c = '\t' || c = '\n' || c = '\r'

/-- Drop leading JSON whitespace. -/
def skipWs (l : List Char) : List Char := l.dropWhile isJsonWs

/-- `trim()` on a payload string. -/
def jsTrim (l : List Char) : List Char :=
  ((l.dropWhile isJsonWs).reverse.dropWhile isJsonWs).reverse

/-- Value of one hexadecimal digit. -/
def hexVal (c : Char) : Option Nat :=
  if '0' ≤ c ∧ c ≤ '9' then some (c.toNat - '0'.toNat)
  else if 'a' ≤ c ∧ c ≤ 'f' then some (c.toNat - 'a'.toNat + 10)
  else if 'A' ≤ c ∧ c ≤ 'F' then some (c.toNat - 'A'.toNat + 10)
  else none

/-- Parse the body of a JSON string after the opening quote; returns the
decoded characters and the input after the closing quote.  Raw control
characters are rejected, escapes are decoded (`\uXXXX` yields the scalar of
the four hex digits). -/
def parseStringBody : List Char → Option (List Char × List Char)
  | [] => none
  | '"' :: rest => some ([], rest)
  | '\\' :: '"' :: r => (parseStringBody r).map fun p => ('"' :: p.1, p.2)
  | '\\' :: '\\' :: r => (parseStringBody r).map fun p => ('\\' :: p.1, p.2)
  | '\\' :: '/' :: r => (parseStringBody r).map fun p => ('/' :: p.1, p.2)
  | '\\' :: 'b' :: r => (parseStringBody r).map fun p => (Char.ofNat 8 :: p.1, p.2)
  | '\\' :: 'f' :: r => (parseStringBody r).map fun p => (Char.ofNat 12 :: p.1, p.2)
  | '\\' :: 'n' :: r => (parseStringBody r).map fun p => ('\n' :: p.1, p.2)
  | '\\' :: 'r' :: r => (parseStringBody r).map fun p => ('\r' :: p.1, p.2)
  | '\\' :: 't' :: r => (parseStringBody r).map fun p => ('\t' :: p.1, p.2)
  | '\\' :: 'u' :: h1 :: h2 :: h3 :: h4 :: r =>
      match hexVal h1, hexVal h2, hexVal h3, hexVal h4 with
      | some a, some b, some c, some d =>
          (parseStringBody r).map fun p =>
            (Char.ofNat (((a * 16 + b) * 16 + c) * 16 + d) :: p.1, p.2)
      | _, _, _, _ => none
  | '\\' :: _ => none
  | c :: rest =>
      if c.toNat < 32 then none
      else (parseStringBody rest).map fun p => (c :: p.1, p.2)

/-- Exponent tail of a JSON number, after the `e`/`E`. -/
def parseExpTail (l : List Char) : Option (List Char) :=
  let l1 := match l with
    | '+' :: r => r
    | '-' :: r => r
    | _ => l
  if (l1.takeWhile Char.isDigit).isEmpty then none
  else some (l1.dropWhile Char.isDigit)

/-- Optional exponent part of a JSON number. -/
def parseExp : List Char → Option (List Char)
  | 'e' :: r => parseExpTail r
  | 'E' :: r => parseExpTail r
  | l => some l

/-- Optional fractional part of a JSON number. -/
def parseFrac : List Char → Option (List Char)
  | '.' :: r =>
      if (r.takeWhile Char.isDigit).isEmpty then none
      else some (r.dropWhile Char.isDigit)
  | l => some l

/-- Parse a JSON number, returning the remaining input. -/
def parseNumber (l : List Char) : Option (List Char) :=
  let l1 := match l with
    | '-' :: r => r
    | _ => l
  if (l1.takeWhile Char.isDigit).isEmpty then none
  else
    match parseFrac (l1.dropWhile Char.isDigit) with
    | none => none
    | some l2 => parseExp l2

mutual

/-- Parse one JSON value (fuel-indexed; the caller supplies more fuel than
the nesting depth of any input of that length can need). -/
def parseVal : Nat → List Char → Option (JVal × List Char)
  | 0, _ => none
  | fuel + 1, l =>
    match skipWs l with
    | '"' :: r => (parseStringBody r).map fun p => (.jstr p.1, p.2)
    | '{' :: r =>
        (match skipWs r with
         | '}' :: r2 => some (.jobj [], r2)
         | _ => (parseMembers fuel r).map fun p => (.jobj p.1, p.2))
    | '[' :: r =>
        (match skipWs r with
         | ']' :: r2 => some (.jarr [], r2)
         | _ => (parseElems fuel r).map fun p => (.jarr p.1, p.2))
    | 't' :: 'r' :: 'u' :: 'e' :: r => some (.jbool true, r)
    | 'f' :: 'a' :: 'l' :: 's' :: 'e' :: r => some (.jbool false, r)
    | 'n' :: 'u' :: 'l' :: 'l' :: r => some (.jnull, r)
    | l2 => (parseNumber l2).map fun rest => (.jnum, rest)

/-- Parse the non-empty member list of a JSON object, up to and including
the closing brace. -/
def parseMembers : Nat → List Char → Option (List (List Char × JVal) × List Char)
  | 0, _ => none
  | fuel + 1, l =>
    match skipWs l with
    | '"' :: r =>
      (match parseStringBody r with
       | none => none
       | some (key, r2) =>
         match skipWs r2 with
         | ':' :: r3 =>
           (match parseVal fuel r3 with
            | none => none
            | some (v, r4) =>
              match skipWs r4 with
              | ',' :: r5 =>
                  (parseMembers fuel r5).map fun p => ((key, v) :: p.1, p.2)
              | '}' :: r5 => some ([(key, v)], r5)
              | _ => none)
         | _ => none)
    | _ => none

/-- Parse the non-empty element list of a JSON array, up to and including
the closing bracket. -/
def parseElems : Nat → List Char → Option (List JVal × List Char)
  | 0, _ => none
  | fuel + 1, l =>
    match parseVal fuel l with
    | none => none
    | some (v, r) =>
      match skipWs r with
      | ',' :: r2 => (parseElems fuel r2).map fun p => (v :: p.1, p.2)
      | ']' :: r2 => some ([v], r2)
      | _ => none

end

/-- `JSON.parse` on a payload: parse one value and require only whitespace
to remain.  Every fuel decrement in the mutual parser is preceded by the
consumption of at least one input character, so `length + 1` fuel suffices
for any input that parses at all. -/
def jsonParse (l : List Char) : Option JVal :=
  match parseVal (l.length + 1) l with
  | some (v, rest) => if (skipWs rest).isEmpty then some v else none
  | none => none

/-- Read a string-valued field of a parsed object (`data.field` followed by
a string use); duplicate keys resolve to the last occurrence, as in
`JSON.parse`.  Non-objects and non-string values yield `none`. -/
def jGetStr (v : JVal) (key : List Char) : Option (List Char) :=
  match v with
  | .jobj fields =>
      match fields.reverse.find? (fun f => f.1 = key) with
      | some (_, .jstr s) => some s
      | _ => none
  | _ => none

/-- The three optional fields of a stream payload the code reads.
(`data.type` is called `rtype` here; `type` is a keyword.) -/
structure JsonRec where
  rtype : Option (List Char)
  content : Option (List Char)
  answer : Option (List Char)
  deriving Repr, DecidableEq

/-- Extract the fields `processMessage` inspects from a parsed payload. -/
def recOfJson (v : JVal) : JsonRec :=
  { rtype := jGetStr v "type".data,
    content := jGetStr v "content".data,
    answer := jGetStr v "answer".data }

/-- Split a decoded chunk on the double-newline delimiter
(`chunk.split("\n\n")`, leftmost non-overlapping occurrences). -/
def splitOnNN : List Char → List (List Char)
  | [] => [[]]
  | '\n' :: '\n' :: rest => [] :: splitOnNN rest
  | c :: rest =>
      match splitOnNN rest with
      | [] => [[c]]
      | h :: t => (c :: h) :: t

/-! ### Message store and per-turn streaming state -/

/-- Message sender. -/
inductive Sender where
  | user
  | ai
  deriving Repr, DecidableEq

/-- One conversation turn (`Message`).  Optional TypeScript fields are
`Option`s; `content` is the accumulated text. -/
structure Message where
  id : String
  content : List Char
  sender : Sender
  timestamp : Nat
  db_id : Option String := none
  processSteps : Option (List ProcessStep) := none
  isStreaming : Option Bool := none
  deriving Repr, DecidableEq

/-- The local id of the assistant placeholder of the turn under study
(`(Date.now() + 1).toString()` in the source; the value is opaque). -/
def aiTempId : String := "ai-temp"

/-- The `setMessages` updater of the `activateStep` helper: mark step
`stepId` of the targeted turn `running` and stamp `startedAt`.
(`if (m.id !== aiTempId || !m.processSteps) return m`.) -/
def activateMsgs (aiId stepId : String) (now : Nat) (msgs : List Message) :
    List Message :=
  msgs.map fun m =>
    if m.id ≠ aiId then m
    else match m.processSteps with
      | none => m
      | some steps =>
          { m with processSteps := some (steps.map fun s =>
              if s.id = stepId then
                { s with status := .running, startedAt := some now }
              else s) }

/-- The `setMessages` updater of the `completeStep` helper: mark step
`stepId` `done`, attach the duration and the (possibly absent) detail. -/
def completeMsgs (aiId stepId : String) (durationMs : Nat)
    (detail : Option String) (msgs : List Message) : List Message :=
  msgs.map fun m =>
    if m.id ≠ aiId then m
    else match m.processSteps with
      | none => m
      | some steps =>
          { m with processSteps := some (steps.map fun s =>
              if s.id = stepId then
                { s with
                  status := .done, durationMs := some durationMs,
                  detail := detail }
              else s) }

/-- The content-publishing `setMessages` updater (run after every applied
fragment, and by the non-streaming fallback). -/
def publishMsgs (aiId : String) (fullContent : List Char)
    (msgs : List Message) : List Message :=
  msgs.map fun m => if m.id = aiId then { m with content := fullContent } else m

/-- The `db_id` backfill updater run after a successful `saveMessage`. -/
def backfillMsgs (aiId dbId : String) (msgs : List Message) : List Message :=
  msgs.map fun m => if m.id = aiId then { m with db_id := some dbId } else m

/-- The updater clearing `isStreaming` at stream end. -/
def clearStreamingMsgs (aiId : String) (msgs : List Message) : List Message :=
  msgs.map fun m => if m.id = aiId then { m with isStreaming := some false } else m

/-- The `catch` handler's updater: replace the content with the apology,
clear `isStreaming`, and turn every `running` step into `error`
(`m.processSteps?.map(...)`: an absent step list stays absent). -/
def failMsgs (aiId : String) (errText : List Char) (msgs : List Message) :
    List Message :=
  msgs.map fun m =>
    if m.id = aiId then
      { m with
        content := errText, isStreaming := some false,
        processSteps := m.processSteps.map fun steps => steps.map fun s =>
          if s.status = .running then { s with status := .error } else s }
    else m

/-- `stepOrder` of the source. -/
def stepOrder : List String :=
  ["sections", "amendments", "landmark", "recent", "writing"]

/-- The advancement thresholds of the timer callback. -/
def thresholds : List Nat := [0, 200, 600, 1200, 2000]

/-- The mutable state of one streaming turn: the message list plus the local
variables of `processMessage`'s read loop.  `clock` models `Date.now()`
(monotone, bumped on each read); `persisted` logs the contents passed to
`saveMessage(sessionId, ·, "ai")`. -/
structure StreamState where
  msgs : List Message
  fullContent : List Char
  responseStarted : Bool
  currentStepIndex : Nat
  activatedSteps : List String
  stepStartTimes : List (String × Nat)
  charCount : Nat
  done : Bool
  clock : Nat
  persisted : List (List Char)
  deriving Repr, DecidableEq

/-- `stepStartTimes[stepId]` (latest assignment wins). -/
def lookupStart (ts : List (String × Nat)) (stepId : String) : Option Nat :=
  (ts.find? fun p => p.1 = stepId).map (·.2)

/-- The `activateStep` helper: no-op when the id was already activated this
turn; otherwise records the activation time and marks the step `running`. -/
def activateStep (st : StreamState) (stepId : String) : StreamState :=
  if st.activatedSteps.contains stepId then st
  else
    let now := st.clock
    { st with
      activatedSteps := stepId :: st.activatedSteps,
      stepStartTimes := (stepId, now) :: st.stepStartTimes,
      clock := st.clock + 1,
      msgs := activateMsgs aiTempId stepId now st.msgs }

/-- The `completeStep` helper: compute the elapsed duration from the recorded
start (`stepStartTimes[stepId] || Date.now()`: an absent — or `0`, falsy —
record falls back to now) and mark the step `done`. -/
def completeStep (st : StreamState) (stepId : String) (detail : Option String) :
    StreamState :=
  let now := st.clock
  let startTime := match lookupStart st.stepStartTimes stepId with
    | some t => if t = 0 then now else t
    | none => now
  { st with
    clock := st.clock + 1,
    msgs := completeMsgs aiTempId stepId (now - startTime) detail st.msgs }

/-- The signal-driven activation loop over the detected step ids
(`for (const stepId of triggered) if (!activatedSteps.has(stepId)) activateStep(stepId)`). -/
def foldActivate (st : StreamState) (ids : List String) : StreamState :=
  ids.foldl
    (fun s stepId =>
      if s.activatedSteps.contains stepId then s else activateStep s stepId)
    st

/-- The first-content force-advance (`if (!responseStarted) { ... }`): mark
the response started and, when the current step is not already the last,
complete it, pin the index at the final step and activate `writing`. -/
def firstJump (st : StreamState) : StreamState :=
  if st.responseStarted then st
  else
    let stA := { st with responseStarted := true }
    if stA.currentStepIndex < stepOrder.length - 1 then
      let stB := completeStep stA (stepOrder.getD stA.currentStepIndex "") none
      let stC := { stB with currentStepIndex := stepOrder.length - 1 }
      activateStep stC "writing"
    else stA

/-- Processing of one applied content fragment: on the first fragment of the
turn, complete the current step and force-advance to `writing`; then
activate any step whose signal the fragment triggers; then accumulate the
fragment and publish the running content. -/
def procContent (st : StreamState) (f : List Char) : StreamState :=
  let st2 := foldActivate (firstJump st) (detectStepsFromChunk f)
  let full := st2.fullContent ++ f
  { st2 with fullContent := full, msgs := publishMsgs aiTempId full st2.msgs }

/-- What one split-off event record means to the loop body, following the
source's decision chain: records without the `data:` marker are skipped; the
`[DONE]` sentinel and a `{type:"done"}` record end the stream; heartbeats,
unparsable payloads (including `null`, whose property access throws into the
frame-level `catch`) and records with a falsy `content` are skipped; a record
with a non-empty string `content` carries a fragment. -/
inductive LineKind where
  | skip
  | doneSig
  | content (f : List Char)
  deriving Repr, DecidableEq

/-- Classify one record of the split chunk. -/
def lineKind (l : List Char) : LineKind :=
  if !("data:".data.isPrefixOf l) then .skip
  else
    let dataStr := jsTrim (l.drop 5)
    if dataStr = "[DONE]".data then .doneSig
    else
      match jsonParse dataStr with
      | none => .skip
      | some .jnull => .skip
      | some v =>
        let data := recOfJson v
        if data.rtype = some "heartbeat".data then .skip
        else if data.rtype = some "done".data then .doneSig
        else match data.content with
          | some f => if f.isEmpty then .skip else .content f
          | none => .skip

/-- The loop body for one record. -/
def procLine (st : StreamState) (l : List Char) : StreamState :=
  match lineKind l with
  | .skip => st
  | .doneSig => { st with done := true }
  | .content f => procContent st f

/-- The `for (const line of lines)` loop: `break` leaves the remaining
records of the chunk unprocessed once `done` is set. -/
def processLines (st : StreamState) : List (List Char) → StreamState
  | [] => st
  | l :: ls => if st.done then st else processLines (procLine st l) ls

/-- The `setInterval` callback: when the current step is not the last and
the accumulated content grew since the last tick, remember the new length
and advance to the first threshold index above the current step whose
threshold the accumulated length reaches. -/
def tickFn (st : StreamState) : StreamState :=
  if st.currentStepIndex < stepOrder.length - 1 ∧
      st.charCount < st.fullContent.length then
    let st0 := { st with charCount := st.fullContent.length }
    let nextIdx := (List.range thresholds.length).find? fun i =>
      st0.currentStepIndex < i ∧ thresholds.getD i 0 ≤ st0.fullContent.length
    match nextIdx with
    | some n =>
      if st0.currentStepIndex < n then
        let st1 := completeStep st0 (stepOrder.getD st0.currentStepIndex "") none
        let st2 := { st1 with currentStepIndex := n }
        if st2.currentStepIndex < stepOrder.length then
          activateStep st2 (stepOrder.getD n "")
        else st2
      else st0
    | none => st0
  else st

/-- One interleaving event of the open stream: a decoded read chunk, or a
firing of the advancement timer.  (Single-threaded event loop: these are the
only two callbacks that run while the stream is open.) -/
inductive Ev where
  | chunk (c : List Char)
  | tick
  deriving Repr, DecidableEq

/-- Apply one event.  Once `done` is set the read loop has exited and the
interval has been cleared synchronously, so late events are not delivered. -/
def evStep (st : StreamState) (e : Ev) : StreamState :=
  match e with
  | .chunk c => if st.done then st else processLines st (splitOnNN c)
  | .tick => if st.done then st else tickFn st

/-- Run the open-stream phase over an interleaving of reads and ticks. -/
def runEvents (st : StreamState) (evs : List Ev) : StreamState :=
  evs.foldl evStep st

/-- The assistant placeholder as built just before the stream starts
(`content: ""`, `processSteps: getInitialSteps(...)`, `isStreaming: true`),
generalized over the intent hint that `getInitialSteps` accepts. -/
def mkAiPlaceholder (intentHint : Option String) : Message :=
  { id := aiTempId, content := [], sender := .ai, timestamp := 0,
    db_id := none, processSteps := some (getInitialSteps intentHint),
    isStreaming := some true }

/-- The placeholder of the source's call site, which always calls
`getInitialSteps()` without a hint. -/
def initMsg : Message := mkAiPlaceholder none

/-- The state at the top of the `try` block: the placeholder is in the list
and `activateStep("sections")` has already run. -/
def initState : StreamState :=
  activateStep
    { msgs := [initMsg], fullContent := [], responseStarted := false,
      currentStepIndex := 0, activatedSteps := [], stepStartTimes := [],
      charCount := 0, done := false, clock := 1, persisted := [] }
    "sections"

/-- The externally supplied outcomes the completion path consults:
the full response body (`response.text()`; `none` = reading it threw) used
only by the empty-stream fallback, and the `saveMessage` result for the
final content. -/
structure RunParams where
  body : Option (List Char)
  aiDbId : Option String
  deriving Repr, DecidableEq

/-- JavaScript `x || y` on an optional string (absent and `""` are falsy). -/
def jsOr (x : Option (List Char)) (els : List Char) : List Char :=
  match x with
  | some v => if v.isEmpty then els else v
  | none => els

/-- End-of-stream cleanup: force every step of `stepOrder` that was never
activated through `activateStep`, then complete it. -/
def forceFinishSteps (st : StreamState) : StreamState :=
  stepOrder.foldl
    (fun s stepId =>
      let s1 := if s.activatedSteps.contains stepId then s
                else activateStep s stepId
      completeStep s1 stepId none)
    st

/-- The non-streaming fallback (`if (!fullContent) { ... }`): when no
content accumulated, read the whole body and extract `answer`/`content`; a
parse failure — or a `null` body, whose property access throws — only sets
the local variable, without publishing. -/
def finFallback (p : RunParams) (st2 : StreamState) : StreamState :=
  if st2.fullContent.isEmpty then
    match p.body with
    | some text =>
      (match jsonParse text with
       | some .jnull =>
           { st2 with fullContent :=
               "Response received but could not be parsed.".data }
       | some v =>
           let data := recOfJson v
           let full := jsOr data.answer (jsOr data.content
             "I'm JuristMind, your legal AI assistant.".data)
           { st2 with
             fullContent := full,
             msgs := publishMsgs aiTempId full st2.msgs }
       | none =>
           { st2 with fullContent :=
               "Response received but could not be parsed.".data })
    | none =>
        { st2 with fullContent :=
            "Response received but could not be parsed.".data }
  else st2

/-- The persistence step (`if (fullContent) { saveMessage(...); ... }`):
append the final content to the persisted log and backfill `db_id` when
`saveMessage` returned one. -/
def finPersist (p : RunParams) (st3 : StreamState) : StreamState :=
  if st3.fullContent.isEmpty then st3
  else
    let stP := { st3 with persisted := st3.persisted ++ [st3.fullContent] }
    match p.aiDbId with
    | some dbId => { stP with msgs := backfillMsgs aiTempId dbId stP.msgs }
    | none => stP

/-- The tail of the completion path, after the force-finish and
`isStreaming` clear: fallback, then persistence. -/
def finTail (p : RunParams) (st2 : StreamState) : StreamState :=
  finPersist p (finFallback p st2)

/-- The completion path after the read loop: clear the interval (no model
state), force all steps terminal, clear `isStreaming`, then run the fallback
and persistence tail. -/
def finishStream (p : RunParams) (st : StreamState) : StreamState :=
  let st1 := forceFinishSteps st
  let st2 := { st1 with msgs := clearStreamingMsgs aiTempId st1.msgs }
  finTail p st2

/-- The fixed apology of the transport-failure handler. -/
def errContent : List Char :=
  "I'm having trouble connecting right now. Please try again.".data

/-- The `catch` handler: clear the interval, apply the failure updater to
the message list, and persist the apology (its `saveMessage` result is
discarded, so no `db_id` backfill happens on this path). -/
def failStream (st : StreamState) : StreamState :=
  { st with
    msgs := failMsgs aiTempId errContent st.msgs,
    persisted := st.persisted ++ [errContent] }

/-- A whole turn that terminates normally. -/
def runStream (evs : List Ev) (p : RunParams) : StreamState :=
  finishStream p (runEvents initState evs)

/-- A whole turn aborted by a transport failure after the events `evs`. -/
def runStreamFail (evs : List Ev) : StreamState :=
  failStream (runEvents initState evs)

/-! ### Observations -/

/-- The assistant turn of the run, if still present. -/
def aiMsg (st : StreamState) : Option Message :=
  st.msgs.find? fun m => m.id = aiTempId

/-- The step list of the assistant turn (empty when absent). -/
def stepsOf (st : StreamState) : List ProcessStep :=
  ((aiMsg st).bind (·.processSteps)).getD []

/-- The status of one step of the assistant turn. -/
def statusOf (st : StreamState) (stepId : String) : Option Status :=
  ((stepsOf st).find? fun s => s.id = stepId).map (·.status)

/-- The visible content of the assistant turn. -/
def contentOf (st : StreamState) : Option (List Char) :=
  (aiMsg st).map (·.content)

/-- The `isStreaming` flag of the assistant turn. -/
def isStreamingOf (st : StreamState) : Option Bool :=
  (aiMsg st).bind (·.isStreaming)

/-- Number of `running` steps of the assistant turn. -/
def runningCount (st : StreamState) : Nat :=
  ((stepsOf st).filter fun s => s.status = .running).length

/-- The id/status projection of the assistant turn's steps. -/
def idStatuses (st : StreamState) : List (String × Status) :=
  (stepsOf st).map fun s => (s.id, s.status)

/-! ### Specification-side predicates and concrete inputs -/

/-- The fixed phase-id set of the Signal Detector. -/
def phaseIds : List String :=
  ["sections", "amendments", "landmark", "recent", "principles", "writing"]

/-- Shape invariant of the turn under study: the message list is exactly the
assistant placeholder (as updated so far), which still carries a step list
whose ids are `stepOrder`. -/
def TurnShape (st : StreamState) : Prop :=
  ∃ m steps, st.msgs = [m] ∧ m.id = aiTempId ∧ m.processSteps = some steps ∧
    steps.map (fun s => s.id) = stepOrder

/-- Flow invariant of the read loop: before the first applied fragment no
content has accumulated and the step index is still `0`; afterwards the
index is pinned at the final (`writing`) step. -/
def Jinv (st : StreamState) : Prop :=
  (st.responseStarted = false → st.fullContent = [] ∧ st.currentStepIndex = 0) ∧
  (st.responseStarted = true → st.currentStepIndex = 4)

/-- Reachability invariant carried through every interleaving: the turn keeps
its shape, its visible content is the accumulated content, and the flow
invariant holds. -/
def Reach (st : StreamState) : Prop :=
  TurnShape st ∧ contentOf st = some st.fullContent ∧ Jinv st

/-- A chunk none of whose content fragments triggers any phase signal. -/
def SigFree (c : List Char) : Bool :=
  (splitOnNN c).all fun l =>
    match lineKind l with
    | .content f => (detectStepsFromChunk f).isEmpty
    | _ => true

/-- An event that carries no phase signal. -/
def EvSigFree : Ev → Bool
  | .chunk c => SigFree c
  | .tick => true

/-- Step statuses before the first applied fragment (signal-free flow). -/
def configPending : List (String × Status) :=
  [("sections", .running), ("amendments", .pending), ("landmark", .pending),
   ("recent", .pending), ("writing", .pending)]

/-- Step statuses after the first applied fragment (signal-free flow). -/
def configStarted : List (String × Status) :=
  [("sections", .done), ("amendments", .pending), ("landmark", .pending),
   ("recent", .pending), ("writing", .running)]

/-- Strengthened invariant of signal-free runs: the step display is in one of
exactly two configurations, tied to whether a fragment has been applied. -/
def SFInv (st : StreamState) : Prop :=
  TurnShape st ∧ Jinv st ∧
  ((st.responseStarted = false ∧ st.activatedSteps = ["sections"] ∧
      idStatuses st = configPending) ∨
   (st.responseStarted = true ∧ st.activatedSteps = ["writing", "sections"] ∧
      idStatuses st = configStarted))

/-- The literal stream of the round-trip scenario. -/
def scenarioChunk : List Char :=
  "data: \x7b\"content\":\"Hello\"\x7d\n\ndata: \x7b\"content\":\" world\"\x7d\n\ndata: [DONE]\n\n".data

/-- A run with no external outcomes (reading the body throws, persistence
returns no id). -/
def noParams : RunParams := ⟨none, none⟩

/-- A single-fragment chunk (used to exhibit the first-fragment jump). -/
def hiChunk : List Char := "data: \x7b\"content\":\"Hi\"\x7d\n\n".data

/-- A fragment carrying an out-of-order phase signal (`PHASE 2`). -/
def phase2Chunk : List Char := "data: \x7b\"content\":\"PHASE 2\"\x7d\n\n".data

/-- A frame whose fragment is 199 characters long. -/
def chunk199 : List Char :=
  "data: \x7b\"content\":\"".data ++ List.replicate 199 'a' ++ "\"\x7d\n\n".data

/-- A frame carrying one further character, crossing the 200 threshold. -/
def chunkOne : List Char := "data: \x7b\"content\":\"a\"\x7d\n\n".data

/-- The malformed frame of the frame-tolerance scenario. -/
def badFrame : List Char := "data: \x7bnot json\x7d".data

/-- Valid frame, malformed frame, valid frame, then the end sentinel. -/
def abWithBad : List Char :=
  "data: \x7b\"content\":\"A\"\x7d\n\ndata: \x7bnot json\x7d\n\ndata: \x7b\"content\":\"B\"\x7d\n\ndata: [DONE]\n\n".data

/-- The same stream without the malformed frame. -/
def abClean : List Char :=
  "data: \x7b\"content\":\"A\"\x7d\n\ndata: \x7b\"content\":\"B\"\x7d\n\ndata: [DONE]\n\n".data

/-- The done-only stream (no content fragment at all). -/
def doneOnlyChunk : List Char := "data: [DONE]\n\n".data

/-- A persisted user turn, used as a concrete non-targeted list entry. -/
def userMsg : Message :=
  { id := "user-1", content := "What is trite law?".data, sender := .user,
    timestamp := 0 }

/-- The scalar (non-message, non-bookkeeping) loop variables, bundled so
that their preservation by the step helpers can be stated once. -/
def scalars (st : StreamState) :
    List Char × Bool × Nat × Bool × List (List Char) × Nat :=
  (st.fullContent, st.responseStarted, st.currentStepIndex, st.done,
   st.persisted, st.charCount)

/-- The four per-id stream updaters, gathered so their common frame
conditions can be stated once. -/
def streamUpdaters (aiId sid dbId : String) (now dur : Nat)
    (det : Option String) (full : List Char) :
    List (List Message → List Message) :=
  [activateMsgs aiId sid now, completeMsgs aiId sid dur det,
   publishMsgs aiId full, backfillMsgs aiId dbId]

/-- The loop state right after the first-fragment force-advance (complete
the current step, pin the index at the final step, activate `writing`),
before signal detection, starting from `initState`. -/
def stateAfterJump : StreamState := firstJump initState

/-! ## General lemmas about the Signal Detector -/

lemma foldl_push {α β : Type} (p : α → Bool) (f : α → β) :
    ∀ (l : List α) (acc : List β),
      l.foldl (fun t x => if p x then t ++ [f x] else t) acc
        = acc ++ (l.filter p).map f := by
  intro l
  induction l with
  | nil => simp
  | cons x xs ih =>
      intro acc
      by_cases h : p x = true <;>
        simp [List.filter_cons, h, ih]

/-- The detector returns exactly the step ids of the signals whose pattern
tests positive, in declaration order. -/
lemma detect_eq (chunk : List Char) :
    detectStepsFromChunk chunk
      = ((STEP_SIGNALS.filter fun sg => patTest chunk sg.pattern).map
          fun sg => sg.stepId) := by
  simpa using
    foldl_push (fun sg => patTest chunk sg.pattern) (fun sg => sg.stepId)
      STEP_SIGNALS []

lemma mem_detect_iff (chunk : List Char) (sid : String) :
    sid ∈ detectStepsFromChunk chunk
      ↔ ∃ sg, sg ∈ STEP_SIGNALS ∧ sg.stepId = sid ∧
          patTest chunk sg.pattern = true := by
  rw [detect_eq]
  simp only [List.mem_map, List.mem_filter]
  constructor
  · rintro ⟨sg, ⟨hmem, htest⟩, hid⟩
    exact ⟨sg, hmem, hid, htest⟩
  · rintro ⟨sg, hmem, hid, htest⟩
    exact ⟨sg, ⟨hmem, htest⟩, hid⟩

/-! ## C7 — the Signal Detector's contract -/

/-- **C7** For every chunk `C`, `detectStepsFromChunk C` returns a subset of
the fixed phase-id set, contains the id of every signal whose pattern
matches `C`, contains no id whose pattern does not match, and is empty when
nothing matches.  (It is a Lean function, hence pure by construction.) -/
theorem claim_C7 (chunk : List Char) :
    ((detectStepsFromChunk chunk).all fun sid => phaseIds.contains sid) = true ∧
    (∀ sg, sg ∈ STEP_SIGNALS →
      (sg.stepId ∈ detectStepsFromChunk chunk ↔ patTest chunk sg.pattern = true)) ∧
    ((∀ sg, sg ∈ STEP_SIGNALS → patTest chunk sg.pattern = false) →
      detectStepsFromChunk chunk = []) := by
  refine ⟨?_, ?_, ?_⟩
  · rw [List.all_eq_true]
    intro sid hsid
    obtain ⟨sg, hmem, hid, -⟩ := (mem_detect_iff chunk sid).mp hsid
    have hall : ∀ sg2, sg2 ∈ STEP_SIGNALS → phaseIds.contains sg2.stepId = true := by
      decide
    exact hid ▸ hall sg hmem
  · intro sg hsg
    constructor
    · intro hmem
      obtain ⟨sg2, hmem2, hid2, htest2⟩ := (mem_detect_iff chunk sg.stepId).mp hmem
      have hnodup : (STEP_SIGNALS.map fun s => s.stepId).Nodup := by decide
      have : sg2 = sg := List.inj_on_of_nodup_map hnodup hmem2 hsg hid2
      exact this ▸ htest2
    · intro htest
      exact (mem_detect_iff chunk sg.stepId).mpr ⟨sg, hsg, rfl, htest⟩
  · intro hnone
    rw [detect_eq]
    have : STEP_SIGNALS.filter (fun sg => patTest chunk sg.pattern) = [] := by
      rw [List.filter_eq_nil_iff]
      intro sg hsg
      simp [hnone sg hsg]
    rw [this]
    rfl

/-- Witness for C7: the detector applied to concrete chunks — `"PHASE 2"`
triggers the `amendments` signal and `"Hello"` triggers nothing. -/
theorem claim_C7_witness :
    "amendments" ∈ detectStepsFromChunk "PHASE 2".data ∧
    detectStepsFromChunk "Hello".data = [] := by
  constructor
  · exact ((claim_C7 "PHASE 2".data).2.1 (STEP_SIGNALS.get ⟨1, by decide⟩)
      (by decide)).mpr (by decide)
  · exact (claim_C7 "Hello".data).2.2 (by decide)

/-! ## C6 — initial steps and query intent -/

/-- **C6 counterexample** For the non-legal intent `greeting`, no steps are
created — but the placeholder's `processSteps` field is *present* (an empty
array), not absent as the claim states. -/
theorem claim_C6_cex :
    getInitialSteps (some "greeting") = [] ∧
    (mkAiPlaceholder (some "greeting")).processSteps = some [] ∧
    (mkAiPlaceholder (some "greeting")).processSteps ≠ none := by
  refine ⟨by decide, by decide, by decide⟩

/-- **C6** (amended) For a non-legal intent (`greeting` / `simple_non_law`)
`getInitialSteps` creates no steps and the placeholder carries a present but
empty `processSteps` list; for every other hint (including none — the call
site always passes none) exactly the five steps `sections`, `amendments`,
`landmark`, `recent`, `writing` are created with status `pending`. -/
theorem claim_C6 :
    getInitialSteps (some "greeting") = [] ∧
    getInitialSteps (some "simple_non_law") = [] ∧
    (mkAiPlaceholder (some "greeting")).processSteps = some [] ∧
    (∀ hint : Option String,
      hint ≠ some "greeting" → hint ≠ some "simple_non_law" →
      ((getInitialSteps hint).map fun s => (s.id, s.status))
        = [("sections", .pending), ("amendments", .pending),
           ("landmark", .pending), ("recent", .pending),
           ("writing", .pending)]) := by
  refine ⟨by decide, by decide, by decide, ?_⟩
  intro hint h1 h2
  match hint with
  | none => decide
  | some h =>
      have hg : (h == "greeting") = false := by
        simp only [beq_eq_false_iff_ne, ne_eq]
        intro hh
        exact h1 (by rw [hh])
      have hs : (h == "simple_non_law") = false := by
        simp only [beq_eq_false_iff_ne, ne_eq]
        intro hh
        exact h2 (by rw [hh])
      simp [getInitialSteps, jsTruthy, List.contains, List.elem, hg, hs]

/-- Witness for C6: an unrecognized hint yields the five pending steps. -/
theorem claim_C6_witness :
    ((getInitialSteps (some "statute query")).map fun s => (s.id, s.status))
      = [("sections", .pending), ("amendments", .pending),
         ("landmark", .pending), ("recent", .pending),
         ("writing", .pending)] :=
  claim_C6.2.2.2 (some "statute query") (by decide) (by decide)

/-! ## C10 — stream-driven updates are pure per-id maps -/

/-- **C10** Every stream-driven message-list update (step activation, step
completion, content publish, `db_id` backfill) preserves the list length,
leaves every entry whose id differs from the targeted id unchanged, and is a
complete no-op when no entry carries the targeted id (it never inserts);
moreover activating a step id absent from the turn's created steps (such as
the detected-only id `principles`) leaves every entry unchanged. -/
lemma map_fix {α : Type} (l : List α) (f : α → α) (h : ∀ a ∈ l, f a = a) :
    l.map f = l := by
  have h2 : l.map f = l.map id := List.map_congr_left h
  rw [h2, List.map_id]

theorem claim_C10 (aiId sid dbId : String) (now dur : Nat)
    (det : Option String) (full : List Char) :
    (∀ F, F ∈ streamUpdaters aiId sid dbId now dur det full →
      (∀ msgs : List Message,
        (F msgs).length = msgs.length ∧
        (∀ i, i < msgs.length → (msgs.getD i initMsg).id ≠ aiId →
          (F msgs).getD i initMsg = msgs.getD i initMsg) ∧
        ((msgs.all fun m => !(m.id == aiId)) = true → F msgs = msgs))) ∧
    (∀ msgs : List Message,
      ((msgs.all fun m => (m.processSteps.getD []).all
          fun s => !(s.id == sid)) = true) →
      activateMsgs aiId sid now msgs = msgs) ∧
    (activateMsgs aiTempId "principles" now [userMsg, initMsg]
      = [userMsg, initMsg]) := by
  have hmapne : ∀ (g : Message → Message) (msgs : List Message),
      (∀ m, m.id ≠ aiId → g m = m) →
      ((msgs.map g).length = msgs.length ∧
       (∀ i, i < msgs.length → (msgs.getD i initMsg).id ≠ aiId →
         (msgs.map g).getD i initMsg = msgs.getD i initMsg) ∧
       ((msgs.all fun m => !(m.id == aiId)) = true → msgs.map g = msgs)) := by
    intro g msgs hg
    refine ⟨List.length_map _ _, ?_, ?_⟩
    · intro i hi hne
      have hsome : msgs[i]? = some msgs[i] := List.getElem?_eq_getElem hi
      have hmap : (msgs.map g)[i]? = some (g msgs[i]) := by
        rw [List.getElem?_map, hsome]
        rfl
      have h3 : msgs.getD i initMsg = msgs[i] := by
        rw [List.getD_eq_getElem?_getD, hsome]
        rfl
      rw [h3] at hne
      rw [List.getD_eq_getElem?_getD, List.getD_eq_getElem?_getD, hmap, hsome,
        Option.getD_some, Option.getD_some, hg _ hne]
    · intro hall
      rw [List.all_eq_true] at hall
      apply map_fix
      intro m hm
      apply hg
      have := hall m hm
      simpa using this
  refine ⟨?_, ?_, ?_⟩
  · intro F hF msgs
    have hFcases :
        F = activateMsgs aiId sid now ∨ F = completeMsgs aiId sid dur det ∨
        F = publishMsgs aiId full ∨ F = backfillMsgs aiId dbId := by
      simpa [streamUpdaters] using hF
    rcases hFcases with h | h | h | h <;> subst h
    · exact hmapne _ msgs (by
        intro m hm
        simp [activateMsgs, hm])
    · exact hmapne _ msgs (by
        intro m hm
        simp [completeMsgs, hm])
    · exact hmapne _ msgs (by
        intro m hm
        simp [publishMsgs, hm])
    · exact hmapne _ msgs (by
        intro m hm
        simp [backfillMsgs, hm])
  · intro msgs hall
    rw [List.all_eq_true] at hall
    unfold activateMsgs
    apply map_fix
    intro m hm
    by_cases hid : m.id ≠ aiId
    · simp only [if_pos hid]
    · rw [if_neg hid]
      cases hps : m.processSteps with
      | none => rfl
      | some steps =>
          have hsteps : ∀ s ∈ steps, ¬(s.id = sid) := by
            intro s hsmem
            have hmm := hall m hm
            rw [List.all_eq_true] at hmm
            have hs := hmm s (by rw [hps]; simpa using hsmem)
            simpa using hs
          have h2 : (steps.map fun s =>
              if s.id = sid then
                { s with status := Status.running, startedAt := some now }
              else s) = steps := by
            apply map_fix
            intro s hsmem
            rw [if_neg (hsteps s hsmem)]
          dsimp only
          rw [h2, ← hps]
  · unfold activateMsgs
    apply map_fix
    intro m hm
    have hm2 : m = userMsg ∨ m = initMsg := by simpa using hm
    have hids : ∀ s, s ∈ getInitialSteps none → ¬(s.id = "principles") := by
      decide
    rcases hm2 with rfl | rfl
    · rw [if_pos (by decide)]
    · rw [if_neg (by decide)]
      show ({ initMsg with processSteps := some ((getInitialSteps none).map
          fun s => if s.id = "principles" then
            { s with status := .running, startedAt := some now }
          else s) } : Message) = initMsg
      have h2 : ((getInitialSteps none).map
          fun s => if s.id = "principles" then
            { s with status := Status.running, startedAt := some now }
          else s) = getInitialSteps none := by
        apply map_fix
        intro s hs
        rw [if_neg (hids s hs)]
      rw [h2]
      rfl

/-- Witness for C10: the frame conditions evaluated on a concrete two-entry
list whose first entry is not the targeted turn. -/
theorem claim_C10_witness :
    (publishMsgs aiTempId "xy".data [userMsg, initMsg]).length = 2 ∧
    (publishMsgs aiTempId "xy".data [userMsg, initMsg]).getD 0 initMsg
      = userMsg ∧
    backfillMsgs aiTempId "db-7" [userMsg] = [userMsg] := by
  have h := (claim_C10 aiTempId "sections" "db-7" 5 3 none "xy".data).1
  refine ⟨?_, ?_, ?_⟩
  · exact (h (publishMsgs aiTempId "xy".data)
      (by simp [streamUpdaters]) [userMsg, initMsg]).1
  · exact (h (publishMsgs aiTempId "xy".data)
      (by simp [streamUpdaters]) [userMsg, initMsg]).2.1 0 (by decide) (by decide)
  · exact (h (backfillMsgs aiTempId "db-7")
      (by simp [streamUpdaters]) [userMsg]).2.2 (by decide)

set_option maxRecDepth 10000

/-! ## C9 — malformed frames are skipped -/

/-- **C9** A malformed (non-JSON) frame is a no-op of the loop body for
every state; in particular the run over valid frame `A`, the malformed
frame, valid frame `B` and the end sentinel equals the run without the
malformed frame, both fragments are applied in order (`"AB"`), and the turn
ends non-streaming.  (The loop body is a total Lean function: no exception
escapes by construction — the source's frame-level `catch` is the `skip`
branch of `lineKind`.) -/
theorem claim_C9 :
    (∀ st : StreamState, procLine st badFrame = st) ∧
    runStream [Ev.chunk abWithBad] noParams
      = runStream [Ev.chunk abClean] noParams ∧
    contentOf (runStream [Ev.chunk abWithBad] noParams) = some "AB".data ∧
    isStreamingOf (runStream [Ev.chunk abWithBad] noParams) = some false := by
  refine ⟨?_, by decide, by decide, by decide⟩
  intro st
  have h : lineKind badFrame = LineKind.skip := by decide
  unfold procLine
  rw [h]

/-! ## Closed counterexamples from concrete runs -/

/-- **C1 counterexample** After the very first content fragment (stream
`data: {"content":"Hi"}`), the tracker sits on `writing` but the
intermediate steps `amendments`, `landmark`, `recent` are still `pending`,
not `done` as the claim states — only the previously current step
(`sections`) was completed. -/
theorem claim_C1_cex :
    statusOf (runEvents initState [Ev.chunk hiChunk]) "sections"
      = some .done ∧
    statusOf (runEvents initState [Ev.chunk hiChunk]) "writing"
      = some .running ∧
    statusOf (runEvents initState [Ev.chunk hiChunk]) "amendments"
      = some .pending ∧
    statusOf (runEvents initState [Ev.chunk hiChunk]) "landmark"
      = some .pending ∧
    statusOf (runEvents initState [Ev.chunk hiChunk]) "recent"
      = some .pending := by
  refine ⟨by decide, by decide, by decide, by decide, by decide⟩

/-- **C3 counterexample** On the transport-failure path (failure before any
frame), `isStreaming` becomes `false` while the created-but-never-activated
step `amendments` is still `pending` — not terminal, contradicting the
claim's "on every termination path". -/
theorem claim_C3_cex :
    isStreamingOf (runStreamFail []) = some false ∧
    statusOf (runStreamFail []) "amendments" = some .pending ∧
    statusOf (runStreamFail []) "amendments" ≠ some .done ∧
    statusOf (runStreamFail []) "amendments" ≠ some .error := by
  refine ⟨by decide, by decide, by decide, by decide⟩

/-- **C4 counterexample** A first fragment containing the out-of-order
signal `PHASE 2` leaves two steps `running` at once (`writing` from the
first-fragment jump and `amendments` from the signal), contradicting the
at-most-one-running claim. -/
theorem claim_C4_cex :
    runningCount (runEvents initState [Ev.chunk phase2Chunk]) = 2 ∧
    statusOf (runEvents initState [Ev.chunk phase2Chunk]) "writing"
      = some .running ∧
    statusOf (runEvents initState [Ev.chunk phase2Chunk]) "amendments"
      = some .running := by
  refine ⟨by decide, by decide, by decide⟩

/-- **C2 counterexample** For the stream consisting only of the end sentinel
(zero content fragments), the persisted assistant content is the fixed
fallback placeholder, not the empty concatenation of the (zero) emitted
fragments — the round-trip claim fails on fragment-free streams. -/
theorem claim_C2_cex :
    (runStream [Ev.chunk doneOnlyChunk] noParams).persisted
      = ["Response received but could not be parsed.".data] ∧
    "Response received but could not be parsed.".data ≠ ([] : List Char) := by
  refine ⟨by decide, by decide⟩

/-! ## Scalar-preservation and flow-invariant lemmas -/

lemma scalars_activateStep (st : StreamState) (sid : String) :
    scalars (activateStep st sid) = scalars st := by
  unfold activateStep
  split <;> rfl

lemma scalars_completeStep (st : StreamState) (sid : String)
    (det : Option String) : scalars (completeStep st sid det) = scalars st := rfl

lemma scalars_foldActivate :
    ∀ (ids : List String) (st : StreamState),
      scalars (foldActivate st ids) = scalars st := by
  intro ids
  induction ids with
  | nil => intro st; rfl
  | cons i is ih =>
      intro st
      show scalars (foldActivate (if st.activatedSteps.contains i then st
        else activateStep st i) is) = scalars st
      rw [ih]
      split <;> simp [scalars_activateStep]

lemma jinv_of_scalars {st1 st2 : StreamState}
    (h : scalars st2 = scalars st1) (hJ : Jinv st1) : Jinv st2 := by
  unfold scalars at h
  simp only [Prod.mk.injEq] at h
  obtain ⟨h1, h2, h3, -⟩ := h
  unfold Jinv at hJ ⊢
  rw [h1, h2, h3]
  exact hJ

/-- Under the flow invariant, the timer callback is a complete no-op: before
the first fragment no content has accumulated, afterwards the index is
already final. -/
lemma tickFn_noop {st : StreamState} (hJ : Jinv st) : tickFn st = st := by
  unfold tickFn
  rw [if_neg]
  rintro ⟨hidx, hgrow⟩
  cases hrs : st.responseStarted with
  | false =>
      have := (hJ.1 hrs).1
      rw [this] at hgrow
      exact absurd hgrow (by simp)
  | true =>
      have h4 := hJ.2 hrs
      rw [h4] at hidx
      exact absurd hidx (by decide)

lemma foldActivate_fullContent (ids : List String) (st : StreamState) :
    (foldActivate st ids).fullContent = st.fullContent :=
  congrArg (fun t => t.1) (scalars_foldActivate ids st)

lemma foldActivate_responseStarted (ids : List String) (st : StreamState) :
    (foldActivate st ids).responseStarted = st.responseStarted :=
  congrArg (fun t => t.2.1) (scalars_foldActivate ids st)

lemma foldActivate_idx (ids : List String) (st : StreamState) :
    (foldActivate st ids).currentStepIndex = st.currentStepIndex :=
  congrArg (fun t => t.2.2.1) (scalars_foldActivate ids st)

lemma foldActivate_done (ids : List String) (st : StreamState) :
    (foldActivate st ids).done = st.done :=
  congrArg (fun t => t.2.2.2.1) (scalars_foldActivate ids st)

lemma foldActivate_persisted (ids : List String) (st : StreamState) :
    (foldActivate st ids).persisted = st.persisted :=
  congrArg (fun t => t.2.2.2.2.1) (scalars_foldActivate ids st)

lemma activateStep_responseStarted (st : StreamState) (sid : String) :
    (activateStep st sid).responseStarted = st.responseStarted :=
  congrArg (fun t => t.2.1) (scalars_activateStep st sid)

lemma activateStep_idx (st : StreamState) (sid : String) :
    (activateStep st sid).currentStepIndex = st.currentStepIndex :=
  congrArg (fun t => t.2.2.1) (scalars_activateStep st sid)

lemma activateStep_fullContent (st : StreamState) (sid : String) :
    (activateStep st sid).fullContent = st.fullContent :=
  congrArg (fun t => t.1) (scalars_activateStep st sid)

lemma activateStep_done (st : StreamState) (sid : String) :
    (activateStep st sid).done = st.done :=
  congrArg (fun t => t.2.2.2.1) (scalars_activateStep st sid)

lemma activateStep_persisted (st : StreamState) (sid : String) :
    (activateStep st sid).persisted = st.persisted :=
  congrArg (fun t => t.2.2.2.2.1) (scalars_activateStep st sid)

/-- The first-content block always leaves `responseStarted` set. -/
lemma firstJump_started (st : StreamState) :
    (firstJump st).responseStarted = true := by
  unfold firstJump
  split
  · next h => exact h
  · dsimp only
    split
    · rw [activateStep_responseStarted]
      rfl
    · rfl

/-- The first-content block pins the index at the final step (from a state
satisfying the flow invariant). -/
lemma firstJump_idx {st : StreamState} (hJ : Jinv st) :
    (firstJump st).currentStepIndex = 4 := by
  unfold firstJump
  split
  · next h => exact hJ.2 h
  · dsimp only
    split
    · rw [activateStep_idx]
      rfl
    · next h h2 =>
        exfalso
        apply h2
        have h0 := (hJ.1 (by simpa using h)).2
        show st.currentStepIndex < stepOrder.length - 1
        rw [h0]
        decide

/-- After processing any applied fragment, `responseStarted` holds. -/
lemma procContent_started (st : StreamState) (f : List Char) :
    (procContent st f).responseStarted = true := by
  show (foldActivate (firstJump st) (detectStepsFromChunk f)).responseStarted
    = true
  rw [foldActivate_responseStarted]
  exact firstJump_started st

/-- After processing any applied fragment (from a state satisfying the flow
invariant), the step index is pinned at the final step. -/
lemma procContent_idx {st : StreamState} (hJ : Jinv st) (f : List Char) :
    (procContent st f).currentStepIndex = 4 := by
  show (foldActivate (firstJump st) (detectStepsFromChunk f)).currentStepIndex
    = 4
  rw [foldActivate_idx]
  exact firstJump_idx hJ

lemma jinv_procContent {st : StreamState} (hJ : Jinv st) (f : List Char) :
    Jinv (procContent st f) := by
  constructor
  · intro hfalse
    rw [procContent_started st f] at hfalse
    exact absurd hfalse (by decide)
  · intro _
    exact procContent_idx hJ f

lemma jinv_procLine {st : StreamState} (hJ : Jinv st) (l : List Char) :
    Jinv (procLine st l) := by
  unfold procLine
  cases h : lineKind l with
  | skip => exact hJ
  | doneSig =>
      unfold Jinv at hJ ⊢
      exact hJ
  | content f => exact jinv_procContent hJ f

lemma jinv_processLines {st : StreamState} (hJ : Jinv st) :
    ∀ ls : List (List Char), Jinv (processLines st ls) := by
  intro ls
  induction ls generalizing st with
  | nil => exact hJ
  | cons l ls ih =>
      show Jinv (if st.done then st else processLines (procLine st l) ls)
      split
      · exact hJ
      · exact ih (jinv_procLine hJ l)

lemma jinv_evStep {st : StreamState} (hJ : Jinv st) (e : Ev) :
    Jinv (evStep st e) := by
  cases e with
  | chunk c =>
      show Jinv (if st.done then st else processLines st (splitOnNN c))
      split
      · exact hJ
      · exact jinv_processLines hJ _
  | tick =>
      show Jinv (if st.done then st else tickFn st)
      split
      · exact hJ
      · rw [tickFn_noop hJ]
        exact hJ

lemma jinv_initState : Jinv initState := by
  constructor
  · intro _
    exact ⟨rfl, rfl⟩
  · intro h
    exact absurd h (by decide)

lemma jinv_runEvents (evs : List Ev) : Jinv (runEvents initState evs) := by
  unfold runEvents
  induction evs using List.reverseRecOn with
  | nil => exact jinv_initState
  | append_singleton evs e ih =>
      rw [List.foldl_append]
      exact jinv_evStep ih e

/-! ## C5 — the time-boxed advancement heuristic -/

/-- **C5 counterexample** For the stream emitting 199 characters and then a
200th, the interleaved timer ticks change nothing at all — in particular, at
the moment accumulated length reaches 200, no step advances (`amendments`
stays `pending`), contradicting the claimed advance-by-one at the
threshold. -/
theorem claim_C5_cex :
    runEvents initState
        [Ev.chunk chunk199, Ev.tick, Ev.chunk chunkOne, Ev.tick]
      = runEvents initState [Ev.chunk chunk199, Ev.chunk chunkOne] ∧
    (runEvents initState
        [Ev.chunk chunk199, Ev.tick, Ev.chunk chunkOne, Ev.tick]).fullContent.length
      = 200 ∧
    statusOf (runEvents initState
        [Ev.chunk chunk199, Ev.tick, Ev.chunk chunkOne, Ev.tick]) "amendments"
      = some .pending := by
  refine ⟨by decide, by decide, by decide⟩

/-- **C5** (amended) The timer callback never advances any step: on every
reachable state of the read loop a tick is a complete no-op (before the
first fragment nothing has accumulated; from the first fragment on, the
force-advance has already pinned the index at the final step, superseding
the 0/200/600/1200/2000 thresholds). -/
theorem claim_C5 (evs1 evs2 : List Ev) :
    runEvents initState (evs1 ++ Ev.tick :: evs2)
      = runEvents initState (evs1 ++ evs2) := by
  have hJ : Jinv (runEvents initState evs1) := jinv_runEvents evs1
  have hstep : evStep (runEvents initState evs1) Ev.tick
      = runEvents initState evs1 := by
    show (if (runEvents initState evs1).done then runEvents initState evs1
      else tickFn (runEvents initState evs1)) = runEvents initState evs1
    split
    · rfl
    · exact tickFn_noop hJ
  show (evs1 ++ Ev.tick :: evs2).foldl evStep initState
    = (evs1 ++ evs2).foldl evStep initState
  rw [List.foldl_append, List.foldl_append, List.foldl_cons]
  show evs2.foldl evStep (evStep (runEvents initState evs1) Ev.tick)
    = evs2.foldl evStep (runEvents initState evs1)
  rw [hstep]

/-! ## Shape of the turn through the stream -/

lemma aiMsg_singleton {st : StreamState} {m : Message}
    (hm : st.msgs = [m]) (hid : m.id = aiTempId) : aiMsg st = some m := by
  unfold aiMsg
  rw [hm]
  simp [List.find?, hid]

lemma stepsOf_singleton {st : StreamState} {m : Message}
    {steps : List ProcessStep} (hm : st.msgs = [m]) (hid : m.id = aiTempId)
    (hps : m.processSteps = some steps) : stepsOf st = steps := by
  unfold stepsOf
  rw [aiMsg_singleton hm hid]
  simp [hps]

lemma contentOf_singleton {st : StreamState} {m : Message}
    (hm : st.msgs = [m]) (hid : m.id = aiTempId) :
    contentOf st = some m.content := by
  unfold contentOf
  rw [aiMsg_singleton hm hid]
  rfl

lemma isStreamingOf_singleton {st : StreamState} {m : Message}
    (hm : st.msgs = [m]) (hid : m.id = aiTempId) :
    isStreamingOf st = m.isStreaming := by
  unfold isStreamingOf
  rw [aiMsg_singleton hm hid]
  rfl

lemma idStatuses_of_steps {st : StreamState} {m : Message}
    {steps : List ProcessStep} (hm : st.msgs = [m]) (hid : m.id = aiTempId)
    (hps : m.processSteps = some steps) :
    idStatuses st = steps.map fun s => (s.id, s.status) := by
  unfold idStatuses
  rw [stepsOf_singleton hm hid hps]

/-- Projecting id/status through a per-id record update. -/
lemma proj_map_update (steps : List ProcessStep) (sid : String)
    (g : ProcessStep → ProcessStep) (newSt : Status)
    (hgid : ∀ s, (g s).id = s.id) (hgst : ∀ s, (g s).status = newSt) :
    ((steps.map fun s => if s.id = sid then g s else s).map
        fun s => (s.id, s.status))
      = ((steps.map fun s => (s.id, s.status)).map
          fun p => if p.1 = sid then (p.1, newSt) else p) := by
  rw [List.map_map, List.map_map]
  apply List.map_congr_left
  intro s _
  by_cases hs : s.id = sid
  · simp [Function.comp, hs, hgid, hgst]
  · simp [Function.comp, hs]

/-- Per-id record updates preserve the id projection. -/
lemma map_ids_update (steps : List ProcessStep) (sid : String)
    (g : ProcessStep → ProcessStep) (hgid : ∀ s, (g s).id = s.id) :
    ((steps.map fun s => if s.id = sid then g s else s).map fun s => s.id)
      = steps.map fun s => s.id := by
  rw [List.map_map]
  apply List.map_congr_left
  intro s _
  by_cases hs : s.id = sid
  · simp [Function.comp, hs, hgid]
  · simp [Function.comp, hs]

lemma activateMsgs_eq {m : Message} {steps : List ProcessStep}
    (hid : m.id = aiTempId) (hps : m.processSteps = some steps)
    (sid : String) (now : Nat) :
    activateMsgs aiTempId sid now [m]
      = [{ m with processSteps := some (steps.map fun s =>
            if s.id = sid then
              { s with status := Status.running, startedAt := some now }
            else s) }] := by
  unfold activateMsgs
  simp only [List.map_cons, List.map_nil]
  rw [if_neg (by rw [hid]; exact fun h => h rfl), hps]

lemma completeMsgs_eq {m : Message} {steps : List ProcessStep}
    (hid : m.id = aiTempId) (hps : m.processSteps = some steps)
    (sid : String) (dur : Nat) (det : Option String) :
    completeMsgs aiTempId sid dur det [m]
      = [{ m with processSteps := some (steps.map fun s =>
            if s.id = sid then
              { s with
                status := Status.done, durationMs := some dur,
                detail := det }
            else s) }] := by
  unfold completeMsgs
  simp only [List.map_cons, List.map_nil]
  rw [if_neg (by rw [hid]; exact fun h => h rfl), hps]

lemma publishMsgs_eq {m : Message} (hid : m.id = aiTempId)
    (full : List Char) :
    publishMsgs aiTempId full [m] = [{ m with content := full }] := by
  unfold publishMsgs
  simp only [List.map_cons, List.map_nil]
  rw [if_pos hid]

lemma backfillMsgs_eq {m : Message} (hid : m.id = aiTempId) (dbId : String) :
    backfillMsgs aiTempId dbId [m] = [{ m with db_id := some dbId }] := by
  unfold backfillMsgs
  simp only [List.map_cons, List.map_nil]
  rw [if_pos hid]

lemma clearStreamingMsgs_eq {m : Message} (hid : m.id = aiTempId) :
    clearStreamingMsgs aiTempId [m] = [{ m with isStreaming := some false }] := by
  unfold clearStreamingMsgs
  simp only [List.map_cons, List.map_nil]
  rw [if_pos hid]

lemma failMsgs_eq {m : Message} (hid : m.id = aiTempId) :
    failMsgs aiTempId errContent [m]
      = [{ m with
            content := errContent,
            isStreaming := some false,
            processSteps := m.processSteps.map fun steps => steps.map fun s =>
              if s.status = .running then { s with status := .error } else s }] := by
  unfold failMsgs
  simp only [List.map_cons, List.map_nil]
  rw [if_pos hid]

/-! ### TurnShape preservation -/

lemma turnShape_activateMsgs {st st2 : StreamState} {sid : String} {now : Nat}
    (h : TurnShape st)
    (heq : st2.msgs = activateMsgs aiTempId sid now st.msgs) :
    TurnShape st2 := by
  obtain ⟨m, steps, hm, hid, hps, hids⟩ := h
  refine ⟨{ m with processSteps := some (steps.map fun s =>
      if s.id = sid then
        { s with status := Status.running, startedAt := some now }
      else s) },
    steps.map fun s =>
      if s.id = sid then
        { s with status := Status.running, startedAt := some now }
      else s,
    ?_, hid, rfl, ?_⟩
  · rw [heq, hm, activateMsgs_eq hid hps]
  · rw [← hids]
    exact map_ids_update steps sid _ (fun s => rfl)

lemma turnShape_completeMsgs {st st2 : StreamState} {sid : String}
    {dur : Nat} {det : Option String} (h : TurnShape st)
    (heq : st2.msgs = completeMsgs aiTempId sid dur det st.msgs) :
    TurnShape st2 := by
  obtain ⟨m, steps, hm, hid, hps, hids⟩ := h
  refine ⟨{ m with processSteps := some (steps.map fun s =>
      if s.id = sid then
        { s with status := Status.done, durationMs := some dur, detail := det }
      else s) },
    steps.map fun s =>
      if s.id = sid then
        { s with status := Status.done, durationMs := some dur, detail := det }
      else s,
    ?_, hid, rfl, ?_⟩
  · rw [heq, hm, completeMsgs_eq hid hps]
  · rw [← hids]
    exact map_ids_update steps sid _ (fun s => rfl)

lemma turnShape_activateStep {st : StreamState} (h : TurnShape st)
    (sid : String) : TurnShape (activateStep st sid) := by
  unfold activateStep
  split
  · exact h
  · exact turnShape_activateMsgs h rfl

lemma turnShape_completeStep {st : StreamState} (h : TurnShape st)
    (sid : String) (det : Option String) :
    TurnShape (completeStep st sid det) :=
  turnShape_completeMsgs h rfl

lemma turnShape_foldActivate {st : StreamState} (h : TurnShape st) :
    ∀ ids : List String, TurnShape (foldActivate st ids) := by
  intro ids
  induction ids generalizing st with
  | nil => exact h
  | cons i is ih =>
      show TurnShape (foldActivate
        (if st.activatedSteps.contains i then st else activateStep st i) is)
      apply ih
      split
      · exact h
      · exact turnShape_activateStep h i

/-- `TurnShape` only concerns the message list. -/
lemma turnShape_of_msgs_eq {st st2 : StreamState}
    (heq : st2.msgs = st.msgs) (h : TurnShape st) : TurnShape st2 := by
  obtain ⟨m, steps, hm, hid, hps, hids⟩ := h
  exact ⟨m, steps, heq.trans hm, hid, hps, hids⟩

lemma turnShape_publishMsgs {st st2 : StreamState} {full : List Char}
    (h : TurnShape st)
    (heq : st2.msgs = publishMsgs aiTempId full st.msgs) : TurnShape st2 := by
  obtain ⟨m, steps, hm, hid, hps, hids⟩ := h
  refine ⟨{ m with content := full }, steps, ?_, hid, hps, hids⟩
  rw [heq, hm, publishMsgs_eq hid]

lemma turnShape_firstJump {st : StreamState} (h : TurnShape st) :
    TurnShape (firstJump st) := by
  unfold firstJump
  split
  · exact h
  · dsimp only
    split
    · refine turnShape_activateStep (turnShape_of_msgs_eq rfl ?_) "writing"
      exact turnShape_completeStep (turnShape_of_msgs_eq rfl h) _ none
    · exact turnShape_of_msgs_eq rfl h

lemma turnShape_procContent {st : StreamState} (h : TurnShape st)
    (f : List Char) : TurnShape (procContent st f) :=
  turnShape_publishMsgs
    (turnShape_foldActivate (turnShape_firstJump h) (detectStepsFromChunk f))
    rfl

lemma turnShape_procLine {st : StreamState} (h : TurnShape st)
    (l : List Char) : TurnShape (procLine st l) := by
  unfold procLine
  cases lineKind l with
  | skip => exact h
  | doneSig => exact turnShape_of_msgs_eq rfl h
  | content f => exact turnShape_procContent h f

lemma turnShape_processLines {st : StreamState} (h : TurnShape st) :
    ∀ ls : List (List Char), TurnShape (processLines st ls) := by
  intro ls
  induction ls generalizing st with
  | nil => exact h
  | cons l ls ih =>
      show TurnShape (if st.done then st else processLines (procLine st l) ls)
      split
      · exact h
      · exact ih (turnShape_procLine h l)

lemma turnShape_initState : TurnShape initState :=
  ⟨_, _, rfl, rfl, rfl, by decide⟩

lemma turnShape_runEvents (evs : List Ev) :
    TurnShape (runEvents initState evs) := by
  unfold runEvents
  induction evs using List.reverseRecOn with
  | nil => exact turnShape_initState
  | append_singleton evs e ih =>
      rw [List.foldl_append]
      have hJ : Jinv (evs.foldl evStep initState) := jinv_runEvents evs
      cases e with
      | chunk c =>
          show TurnShape (if (evs.foldl evStep initState).done then _ else _)
          split
          · exact ih
          · exact turnShape_processLines ih _
      | tick =>
          show TurnShape (if (evs.foldl evStep initState).done then _ else _)
          split
          · exact ih
          · rw [tickFn_noop hJ]
            exact ih

/-! ## C8 — transport failure -/

lemma stepsOf_ids {st : StreamState} (h : TurnShape st) :
    (stepsOf st).map (fun s => s.id) = stepOrder := by
  obtain ⟨m, steps, hm, hid, hps, hids⟩ := h
  rw [stepsOf_singleton hm hid hps]
  exact hids

lemma failStream_facts {st : StreamState} (h : TurnShape st) :
    contentOf (failStream st) = some errContent ∧
    isStreamingOf (failStream st) = some false ∧
    (failStream st).persisted = st.persisted ++ [errContent] ∧
    stepsOf (failStream st) = (stepsOf st).map
      (fun s => if s.status = .running then { s with status := .error } else s) := by
  obtain ⟨m, steps, hm, hid, hps, hids⟩ := h
  have hmsgs : (failStream st).msgs = [{ m with
      content := errContent,
      isStreaming := some false,
      processSteps := m.processSteps.map fun steps2 => steps2.map fun s =>
        if s.status = .running then { s with status := .error } else s }] := by
    show failMsgs aiTempId errContent st.msgs = _
    rw [hm, failMsgs_eq hid]
  have hps2 : ({ m with
      content := errContent,
      isStreaming := some false,
      processSteps := m.processSteps.map fun steps2 => steps2.map fun s =>
        if s.status = .running then { s with status := .error } else s } :
        Message).processSteps
      = some (steps.map fun s =>
          if s.status = .running then { s with status := .error } else s) := by
    show m.processSteps.map _ = _
    rw [hps]
    rfl
  refine ⟨?_, ?_, rfl, ?_⟩
  · rw [contentOf_singleton hmsgs hid]
  · rw [isStreamingOf_singleton hmsgs hid]
  · rw [stepsOf_singleton hmsgs hid hps2, stepsOf_singleton hm hid hps]

/-- **C8** If the transport throws after any prefix of the stream, the
`catch` handler makes the turn's visible content the fixed apology, clears
`isStreaming`, appends the apology to the persisted log, and maps the step
list pointwise: every `running` step becomes `error` and every other step
(in particular every still-`pending`, never-started step) keeps its status;
the five created steps are still present. -/
theorem claim_C8 (evs : List Ev) :
    contentOf (runStreamFail evs) = some errContent ∧
    isStreamingOf (runStreamFail evs) = some false ∧
    (runStreamFail evs).persisted
      = (runEvents initState evs).persisted ++ [errContent] ∧
    stepsOf (runStreamFail evs)
      = (stepsOf (runEvents initState evs)).map
          (fun s => if s.status = .running then { s with status := .error } else s) ∧
    (stepsOf (runEvents initState evs)).map (fun s => s.id) = stepOrder := by
  have h := turnShape_runEvents evs
  obtain ⟨h1, h2, h3, h4⟩ := failStream_facts h
  exact ⟨h1, h2, h3, h4, stepsOf_ids h⟩

/-- Witness for C8: the failure facts at a concrete one-chunk prefix. -/
theorem claim_C8_witness :
    contentOf (runStreamFail [Ev.chunk hiChunk]) = some errContent ∧
    isStreamingOf (runStreamFail [Ev.chunk hiChunk]) = some false :=
  ⟨(claim_C8 [Ev.chunk hiChunk]).1, (claim_C8 [Ev.chunk hiChunk]).2.1⟩

/-- Witness for C5 (its binders instantiated at a concrete run). -/
theorem claim_C5_witness :
    runEvents initState ([Ev.chunk hiChunk] ++ Ev.tick :: [])
      = runEvents initState ([Ev.chunk hiChunk] ++ []) :=
  claim_C5 [Ev.chunk hiChunk] []

/-! ## C1 — the first-content force-advance -/

lemma statusOf_congr {st st2 : StreamState} (h : stepsOf st2 = stepsOf st)
    (sid : String) : statusOf st2 sid = statusOf st sid := by
  unfold statusOf
  rw [h]

lemma stepsOf_activateStep_eq {st : StreamState} {m : Message}
    {steps : List ProcessStep} (hm : st.msgs = [m]) (hid : m.id = aiTempId)
    (hps : m.processSteps = some steps) (sid : String) :
    stepsOf (activateStep st sid) = stepsOf st ∨
    stepsOf (activateStep st sid) = steps.map fun s =>
      if s.id = sid then
        { s with status := Status.running, startedAt := some st.clock }
      else s := by
  unfold activateStep
  by_cases hc : st.activatedSteps.contains sid = true
  · rw [if_pos hc]
    exact Or.inl rfl
  · rw [if_neg hc]
    right
    refine stepsOf_singleton
      (m := { m with processSteps := some (steps.map fun s =>
        if s.id = sid then
          { s with status := Status.running, startedAt := some st.clock }
        else s) }) ?_ hid rfl
    show activateMsgs aiTempId sid st.clock st.msgs = _
    rw [hm, activateMsgs_eq hid hps]

lemma find_status_self (sid : String) (newSt : Status)
    (g : ProcessStep → ProcessStep) (hgid : ∀ s, (g s).id = s.id)
    (hgst : ∀ s, (g s).status = newSt) :
    ∀ steps : List ProcessStep,
      ((steps.map fun s => if s.id = sid then g s else s).find?
          (fun s => s.id = sid)).map (fun s => s.status)
        = (steps.find? (fun s => s.id = sid)).map (fun _ => newSt) := by
  intro steps
  induction steps with
  | nil => simp
  | cons s ss ih =>
      simp only [List.map_cons]
      by_cases h1 : s.id = sid
      · rw [if_pos h1]
        rw [List.find?_cons_of_pos _ (by simp [hgid, h1]),
          List.find?_cons_of_pos _ (by simp [h1])]
        simp [hgst]
      · rw [if_neg h1]
        rw [List.find?_cons_of_neg _ (by simp [h1]),
          List.find?_cons_of_neg _ (by simp [h1])]
        exact ih

lemma find_status_other {sid sid2 : String} (hne : sid ≠ sid2)
    (g : ProcessStep → ProcessStep) (hgid : ∀ s, (g s).id = s.id) :
    ∀ steps : List ProcessStep,
      ((steps.map fun s => if s.id = sid2 then g s else s).find?
          (fun s => s.id = sid)).map (fun s => s.status)
        = (steps.find? (fun s => s.id = sid)).map (fun s => s.status) := by
  intro steps
  induction steps with
  | nil => simp
  | cons s ss ih =>
      simp only [List.map_cons]
      by_cases h2 : s.id = sid2
      · have h1 : ¬(s.id = sid) := by
          rw [h2]
          exact fun h => hne h.symm
        rw [if_pos h2]
        rw [List.find?_cons_of_neg _ (by simp [hgid, h1]),
          List.find?_cons_of_neg _ (by simp [h1])]
        exact ih
      · rw [if_neg h2]
        by_cases h1 : s.id = sid
        · rw [List.find?_cons_of_pos _ (by simp [h1]),
            List.find?_cons_of_pos _ (by simp [h1])]
        · rw [List.find?_cons_of_neg _ (by simp [h1]),
            List.find?_cons_of_neg _ (by simp [h1])]
          exact ih

lemma statusOf_activateStep_other {st : StreamState} (h : TurnShape st)
    {sid sid2 : String} (hne : sid ≠ sid2) :
    statusOf (activateStep st sid2) sid = statusOf st sid := by
  obtain ⟨m, steps, hm, hid, hps, hids⟩ := h
  rcases stepsOf_activateStep_eq hm hid hps sid2 with he | he
  · exact statusOf_congr he sid
  · unfold statusOf
    rw [he, stepsOf_singleton hm hid hps]
    exact find_status_other hne
      (fun s => { s with status := Status.running, startedAt := some st.clock })
      (fun s => rfl) steps

lemma statusOf_activateStep_self {st : StreamState} (h : TurnShape st)
    (sid : String) :
    statusOf (activateStep st sid) sid = statusOf st sid ∨
    statusOf (activateStep st sid) sid = some Status.running := by
  obtain ⟨m, steps, hm, hid, hps, hids⟩ := h
  rcases stepsOf_activateStep_eq hm hid hps sid with he | he
  · exact Or.inl (statusOf_congr he sid)
  · unfold statusOf
    rw [he, stepsOf_singleton hm hid hps,
      find_status_self sid Status.running
        (fun s => { s with status := Status.running, startedAt := some st.clock })
        (fun s => rfl) (fun s => rfl) steps]
    cases steps.find? (fun s => s.id = sid) with
    | none => exact Or.inl rfl
    | some s0 => exact Or.inr rfl

lemma activatedSteps_activateStep {st : StreamState} {sid sid2 : String}
    (h : sid ∈ st.activatedSteps) :
    sid ∈ (activateStep st sid2).activatedSteps := by
  unfold activateStep
  split
  · exact h
  · exact List.mem_cons_of_mem _ h

/-- Signal-driven activation never un-completes a step: through the guarded
activation fold, each step's status is either unchanged or `running`, and
steps already activated keep their status. -/
lemma foldActivate_statusOf :
    ∀ (ids : List String) (st : StreamState), TurnShape st → ∀ sid : String,
      (statusOf (foldActivate st ids) sid = statusOf st sid ∨
        statusOf (foldActivate st ids) sid = some Status.running) ∧
      (sid ∈ st.activatedSteps →
        statusOf (foldActivate st ids) sid = statusOf st sid ∧
        sid ∈ (foldActivate st ids).activatedSteps) := by
  intro ids
  induction ids with
  | nil => exact fun st _ sid => ⟨Or.inl rfl, fun h => ⟨rfl, h⟩⟩
  | cons i is ih =>
      intro st hTS sid
      have hbody : TurnShape (if st.activatedSteps.contains i then st
          else activateStep st i) := by
        split
        · exact hTS
        · exact turnShape_activateStep hTS i
      have hstep : foldActivate st (i :: is)
          = foldActivate (if st.activatedSteps.contains i then st
              else activateStep st i) is := rfl
      constructor
      · rcases (ih _ hbody sid).1 with h1 | h1
        · rw [hstep, h1]
          by_cases hc : st.activatedSteps.contains i = true
          · rw [if_pos hc]
            exact Or.inl rfl
          · rw [if_neg hc]
            by_cases hii : sid = i
            · subst hii
              exact statusOf_activateStep_self hTS sid
            · exact Or.inl (statusOf_activateStep_other hTS hii)
        · rw [hstep]
          exact Or.inr h1
      · intro hmem
        have hmem2 : sid ∈ (if st.activatedSteps.contains i then st
            else activateStep st i).activatedSteps := by
          split
          · exact hmem
          · exact activatedSteps_activateStep hmem
        obtain ⟨heq, hmem3⟩ := (ih _ hbody sid).2 hmem2
        rw [hstep, heq]
        refine ⟨?_, hmem3⟩
        by_cases hc : st.activatedSteps.contains i = true
        · rw [if_pos hc]
        · rw [if_neg hc]
          by_cases hii : sid = i
          · subst hii
            exact absurd (List.elem_eq_true_of_mem hmem) hc
          · exact statusOf_activateStep_other hTS hii

lemma shape_publish {st st2 : StreamState} {full : List Char}
    (h : TurnShape st) (heq : st2.msgs = publishMsgs aiTempId full st.msgs) :
    stepsOf st2 = stepsOf st ∧ contentOf st2 = some full ∧
    isStreamingOf st2 = isStreamingOf st := by
  obtain ⟨m, steps, hm, hid, hps, hids⟩ := h
  have hmsgs : st2.msgs = [{ m with content := full }] := by
    rw [heq, hm, publishMsgs_eq hid]
  refine ⟨?_, ?_, ?_⟩
  · rw [stepsOf_singleton hmsgs hid hps, stepsOf_singleton hm hid hps]
  · rw [contentOf_singleton hmsgs hid]
  · rw [isStreamingOf_singleton hmsgs hid, isStreamingOf_singleton hm hid]

/-- Processing a first fragment from `initState` is: jump to
`stateAfterJump`, activate the detected signals, then append and publish. -/
lemma procContent_init_eq (f : List Char) :
    procContent initState f
      = { foldActivate stateAfterJump (detectStepsFromChunk f) with
          fullContent :=
            (foldActivate stateAfterJump (detectStepsFromChunk f)).fullContent
              ++ f,
          msgs := publishMsgs aiTempId
            ((foldActivate stateAfterJump (detectStepsFromChunk f)).fullContent
              ++ f)
            (foldActivate stateAfterJump (detectStepsFromChunk f)).msgs } := rfl

/-- **C1** (amended) On the first content fragment of a turn, the tracker
completes only the current (`sections`) step, force-advances the index to
the final step and sets `writing` running; the intermediate steps
`amendments`, `landmark`, `recent` are *not* marked done (they stay
`pending`, or at most become `running` through a phase signal carried by the
same fragment). -/
theorem claim_C1 (f : List Char) (hf : f ≠ []) :
    statusOf (procContent initState f) "sections" = some Status.done ∧
    statusOf (procContent initState f) "writing" = some Status.running ∧
    statusOf (procContent initState f) "amendments" ≠ some Status.done ∧
    statusOf (procContent initState f) "landmark" ≠ some Status.done ∧
    statusOf (procContent initState f) "recent" ≠ some Status.done ∧
    (procContent initState f).currentStepIndex = 4 := by
  have hTS1 : TurnShape stateAfterJump := ⟨_, _, rfl, rfl, rfl, by decide⟩
  have hTS2 : TurnShape (foldActivate stateAfterJump (detectStepsFromChunk f)) :=
    turnShape_foldActivate hTS1 _
  have hsteps : stepsOf (procContent initState f)
      = stepsOf (foldActivate stateAfterJump (detectStepsFromChunk f)) := by
    rw [procContent_init_eq f]
    exact (shape_publish hTS2 rfl).1
  have hstat : ∀ sid, statusOf (procContent initState f) sid
      = statusOf (foldActivate stateAfterJump (detectStepsFromChunk f)) sid :=
    fun sid => statusOf_congr hsteps sid
  refine ⟨?_, ?_, ?_, ?_, ?_, procContent_idx jinv_initState f⟩
  · rw [hstat]
    rw [((foldActivate_statusOf (detectStepsFromChunk f) stateAfterJump hTS1
      "sections").2 (by decide)).1]
    decide
  · rw [hstat]
    rw [((foldActivate_statusOf (detectStepsFromChunk f) stateAfterJump hTS1
      "writing").2 (by decide)).1]
    decide
  · rw [hstat]
    rcases (foldActivate_statusOf (detectStepsFromChunk f) stateAfterJump hTS1
      "amendments").1 with h | h <;> rw [h] <;> decide
  · rw [hstat]
    rcases (foldActivate_statusOf (detectStepsFromChunk f) stateAfterJump hTS1
      "landmark").1 with h | h <;> rw [h] <;> decide
  · rw [hstat]
    rcases (foldActivate_statusOf (detectStepsFromChunk f) stateAfterJump hTS1
      "recent").1 with h | h <;> rw [h] <;> decide

/-- Witness for C1: the amended statement at the concrete fragment `"Hi"`. -/
theorem claim_C1_witness :
    statusOf (procContent initState "Hi".data) "sections" = some Status.done ∧
    statusOf (procContent initState "Hi".data) "writing" = some Status.running ∧
    statusOf (procContent initState "Hi".data) "amendments" ≠ some Status.done ∧
    statusOf (procContent initState "Hi".data) "landmark" ≠ some Status.done ∧
    statusOf (procContent initState "Hi".data) "recent" ≠ some Status.done ∧
    (procContent initState "Hi".data).currentStepIndex = 4 :=
  claim_C1 "Hi".data (by decide)

/-! ## C3 — terminal steps at stream end -/

lemma idStatuses_activateMsgs_state {st st2 : StreamState} {sid : String}
    {now : Nat} (h : TurnShape st)
    (heq : st2.msgs = activateMsgs aiTempId sid now st.msgs) :
    idStatuses st2 = (idStatuses st).map
      fun p => if p.1 = sid then (p.1, Status.running) else p := by
  obtain ⟨m, steps, hm, hid, hps, hids⟩ := h
  have hmsgs : st2.msgs = [{ m with processSteps := some (steps.map fun s =>
      if s.id = sid then
        { s with status := Status.running, startedAt := some now }
      else s) }] := by
    rw [heq, hm, activateMsgs_eq hid hps]
  rw [idStatuses_of_steps hmsgs hid rfl, idStatuses_of_steps hm hid hps]
  exact proj_map_update steps sid _ Status.running (fun s => rfl) (fun s => rfl)

lemma idStatuses_completeMsgs_state {st st2 : StreamState} {sid : String}
    {dur : Nat} {det : Option String} (h : TurnShape st)
    (heq : st2.msgs = completeMsgs aiTempId sid dur det st.msgs) :
    idStatuses st2 = (idStatuses st).map
      fun p => if p.1 = sid then (p.1, Status.done) else p := by
  obtain ⟨m, steps, hm, hid, hps, hids⟩ := h
  have hmsgs : st2.msgs = [{ m with processSteps := some (steps.map fun s =>
      if s.id = sid then
        { s with
          status := Status.done, durationMs := some dur, detail := det }
      else s) }] := by
    rw [heq, hm, completeMsgs_eq hid hps]
  rw [idStatuses_of_steps hmsgs hid rfl, idStatuses_of_steps hm hid hps]
  exact proj_map_update steps sid _ Status.done (fun s => rfl) (fun s => rfl)

lemma idStatuses_activateStep {st : StreamState} (h : TurnShape st)
    (sid : String) :
    idStatuses (activateStep st sid)
      = if st.activatedSteps.contains sid then idStatuses st
        else (idStatuses st).map
          fun p => if p.1 = sid then (p.1, Status.running) else p := by
  unfold activateStep
  by_cases hc : st.activatedSteps.contains sid = true
  · rw [if_pos hc, if_pos hc]
  · rw [if_neg hc, if_neg hc]
    exact idStatuses_activateMsgs_state h rfl

lemma idStatuses_completeStep {st : StreamState} (h : TurnShape st)
    (sid : String) (det : Option String) :
    idStatuses (completeStep st sid det)
      = (idStatuses st).map
          fun p => if p.1 = sid then (p.1, Status.done) else p :=
  idStatuses_completeMsgs_state h rfl

lemma idStatuses_forceOne {st : StreamState} (h : TurnShape st)
    (sid : String) :
    idStatuses (completeStep
        (if st.activatedSteps.contains sid then st else activateStep st sid)
        sid none)
      = (idStatuses st).map
          fun p => if p.1 = sid then (p.1, Status.done) else p := by
  by_cases hc : st.activatedSteps.contains sid = true
  · rw [if_pos hc]
    exact idStatuses_completeStep h sid none
  · rw [if_neg hc]
    rw [idStatuses_completeStep (turnShape_activateStep h sid) sid none,
      idStatuses_activateStep h sid, if_neg hc, List.map_map]
    apply List.map_congr_left
    intro p _
    by_cases hp : p.1 = sid <;> simp [Function.comp, hp]

lemma opKeep {st st2 : StreamState} {m : Message} {X : List ProcessStep}
    (hm : st.msgs = [m]) (hid : m.id = aiTempId)
    (hmsgs : st2.msgs = [{ m with processSteps := some X }]) :
    contentOf st2 = contentOf st ∧ isStreamingOf st2 = isStreamingOf st := by
  rw [contentOf_singleton hmsgs hid, contentOf_singleton hm hid,
    isStreamingOf_singleton hmsgs hid, isStreamingOf_singleton hm hid]
  exact ⟨rfl, rfl⟩

lemma keep_activateStep {st : StreamState} (h : TurnShape st) (sid : String) :
    contentOf (activateStep st sid) = contentOf st ∧
    isStreamingOf (activateStep st sid) = isStreamingOf st := by
  obtain ⟨m, steps, hm, hid, hps, hids⟩ := h
  unfold activateStep
  by_cases hc : st.activatedSteps.contains sid = true
  · rw [if_pos hc]
    exact ⟨rfl, rfl⟩
  · rw [if_neg hc]
    have hmsgs : activateMsgs aiTempId sid st.clock st.msgs
        = [{ m with processSteps := some (steps.map fun s =>
            if s.id = sid then
              { s with status := Status.running, startedAt := some st.clock }
            else s) }] := by
      rw [hm, activateMsgs_eq hid hps]
    exact opKeep hm hid hmsgs

lemma keep_completeStep {st : StreamState} (h : TurnShape st) (sid : String)
    (det : Option String) :
    contentOf (completeStep st sid det) = contentOf st ∧
    isStreamingOf (completeStep st sid det) = isStreamingOf st := by
  obtain ⟨m, steps, hm, hid, hps, hids⟩ := h
  have hmsgs : (completeStep st sid det).msgs
      = [{ m with processSteps := some (steps.map fun s =>
          if s.id = sid then
            { s with
              status := Status.done,
              durationMs := some (st.clock -
                (match lookupStart st.stepStartTimes sid with
                 | some t => if t = 0 then st.clock else t
                 | none => st.clock)),
              detail := det }
          else s) }] := by
    show completeMsgs aiTempId sid _ det st.msgs = _
    rw [hm, completeMsgs_eq hid hps]
  exact opKeep hm hid hmsgs

lemma forceFold_facts :
    ∀ (ids : List String) (st : StreamState), TurnShape st →
      TurnShape (ids.foldl (fun s stepId =>
          completeStep
            (if s.activatedSteps.contains stepId then s
             else activateStep s stepId) stepId none) st) ∧
      idStatuses (ids.foldl (fun s stepId =>
          completeStep
            (if s.activatedSteps.contains stepId then s
             else activateStep s stepId) stepId none) st)
        = (idStatuses st).map
            (fun p => if ids.contains p.1 then (p.1, Status.done) else p) ∧
      contentOf (ids.foldl (fun s stepId =>
          completeStep
            (if s.activatedSteps.contains stepId then s
             else activateStep s stepId) stepId none) st) = contentOf st ∧
      isStreamingOf (ids.foldl (fun s stepId =>
          completeStep
            (if s.activatedSteps.contains stepId then s
             else activateStep s stepId) stepId none) st) = isStreamingOf st := by
  intro ids
  induction ids with
  | nil =>
      intro st h
      refine ⟨h, ?_, rfl, rfl⟩
      symm
      apply map_fix
      intro p _
      rfl
  | cons i is ih =>
      intro st h
      have hbody : TurnShape (completeStep
          (if st.activatedSteps.contains i then st else activateStep st i)
          i none) := by
        refine turnShape_completeStep ?_ i none
        split
        · exact h
        · exact turnShape_activateStep h i
      have hkbody : contentOf (completeStep
            (if st.activatedSteps.contains i then st else activateStep st i)
            i none) = contentOf st ∧
          isStreamingOf (completeStep
            (if st.activatedSteps.contains i then st else activateStep st i)
            i none) = isStreamingOf st := by
        by_cases hc : st.activatedSteps.contains i = true
        · rw [if_pos hc]
          exact keep_completeStep h i none
        · rw [if_neg hc]
          obtain ⟨k1, k2⟩ :=
            keep_completeStep (turnShape_activateStep h i) i none
          obtain ⟨k3, k4⟩ := keep_activateStep h i
          exact ⟨k1.trans k3, k2.trans k4⟩
      obtain ⟨ih1, ih2, ih3, ih4⟩ := ih _ hbody
      rw [List.foldl_cons]
      refine ⟨ih1, ?_, ih3.trans hkbody.1, ih4.trans hkbody.2⟩
      rw [ih2, idStatuses_forceOne h i, List.map_map]
      apply List.map_congr_left
      intro p _
      by_cases hp : p.1 = i
      · by_cases hq : is.contains p.1 = true <;>
          simp [Function.comp, hp, hq, List.contains_cons]
      · by_cases hq : is.contains p.1 = true <;>
          simp [Function.comp, hp, hq, List.contains_cons]

lemma forceFinish_all_done {st : StreamState} (h : TurnShape st) :
    TurnShape (forceFinishSteps st) ∧
    (∀ s ∈ stepsOf (forceFinishSteps st), s.status = Status.done) ∧
    contentOf (forceFinishSteps st) = contentOf st ∧
    isStreamingOf (forceFinishSteps st) = isStreamingOf st := by
  have hfacts :
      TurnShape (forceFinishSteps st) ∧
      idStatuses (forceFinishSteps st)
        = (idStatuses st).map
            (fun p => if stepOrder.contains p.1 then (p.1, Status.done) else p) ∧
      contentOf (forceFinishSteps st) = contentOf st ∧
      isStreamingOf (forceFinishSteps st) = isStreamingOf st :=
    forceFold_facts stepOrder st h
  obtain ⟨h1, h2, h3, h4⟩ := hfacts
  refine ⟨h1, ?_, h3, h4⟩
  intro s hs
  have hmem : (s.id, s.status) ∈ idStatuses (forceFinishSteps st) :=
    List.mem_map_of_mem _ hs
  rw [h2] at hmem
  obtain ⟨q, hq, heq⟩ := List.mem_map.mp hmem
  have hq1 : stepOrder.contains q.1 = true := by
    obtain ⟨m, steps, hm2, hid2, hps2, hids2⟩ := h
    rw [idStatuses_of_steps hm2 hid2 hps2] at hq
    obtain ⟨s0, hs0, rfl⟩ := List.mem_map.mp hq
    refine List.elem_eq_true_of_mem ?_
    show s0.id ∈ stepOrder
    rw [← hids2]
    exact List.mem_map_of_mem _ hs0
  rw [if_pos hq1] at heq
  have h5 := congrArg Prod.snd heq
  exact h5.symm

lemma shape_clear {st : StreamState} (st2 : StreamState) (h : TurnShape st)
    (heq : st2.msgs = clearStreamingMsgs aiTempId st.msgs) :
    TurnShape st2 ∧ stepsOf st2 = stepsOf st ∧
    isStreamingOf st2 = some false ∧ contentOf st2 = contentOf st := by
  obtain ⟨m, steps, hm, hid, hps, hids⟩ := h
  have hmsgs : st2.msgs = [{ m with isStreaming := some false }] := by
    rw [heq, hm, clearStreamingMsgs_eq hid]
  refine ⟨⟨_, steps, hmsgs, hid, hps, hids⟩, ?_, ?_, ?_⟩
  · rw [stepsOf_singleton hmsgs hid hps, stepsOf_singleton hm hid hps]
  · rw [isStreamingOf_singleton hmsgs hid]
  · rw [contentOf_singleton hmsgs hid, contentOf_singleton hm hid]

lemma shape_backfill {st : StreamState} (st2 : StreamState) (dbId : String)
    (h : TurnShape st) (heq : st2.msgs = backfillMsgs aiTempId dbId st.msgs) :
    stepsOf st2 = stepsOf st ∧ isStreamingOf st2 = isStreamingOf st ∧
    contentOf st2 = contentOf st := by
  obtain ⟨m, steps, hm, hid, hps, hids⟩ := h
  have hmsgs : st2.msgs = [{ m with db_id := some dbId }] := by
    rw [heq, hm, backfillMsgs_eq hid]
  refine ⟨?_, ?_, ?_⟩
  · rw [stepsOf_singleton hmsgs hid hps, stepsOf_singleton hm hid hps]
  · rw [isStreamingOf_singleton hmsgs hid, isStreamingOf_singleton hm hid]
  · rw [contentOf_singleton hmsgs hid, contentOf_singleton hm hid]

lemma scalars_forceFold :
    ∀ (ids : List String) (st : StreamState),
      scalars (ids.foldl (fun s stepId =>
          completeStep
            (if s.activatedSteps.contains stepId then s
             else activateStep s stepId) stepId none) st) = scalars st := by
  intro ids
  induction ids with
  | nil => intro st; rfl
  | cons i is ih =>
      intro st
      show scalars (is.foldl _ (completeStep
        (if st.activatedSteps.contains i then st else activateStep st i)
        i none)) = scalars st
      rw [ih, scalars_completeStep]
      split <;> simp [scalars_activateStep]

/-- The turn observations only depend on the message list. -/
lemma obs_msgs_congr {st st2 : StreamState} (h : st2.msgs = st.msgs) :
    stepsOf st2 = stepsOf st ∧ isStreamingOf st2 = isStreamingOf st ∧
    contentOf st2 = contentOf st := by
  unfold stepsOf isStreamingOf contentOf aiMsg
  rw [h]
  exact ⟨rfl, rfl, rfl⟩

lemma turnShape_backfillMsgs {st st2 : StreamState} {dbId : String}
    (h : TurnShape st)
    (heq : st2.msgs = backfillMsgs aiTempId dbId st.msgs) : TurnShape st2 := by
  obtain ⟨m, steps, hm, hid, hps, hids⟩ := h
  refine ⟨{ m with db_id := some dbId }, steps, ?_, hid, hps, hids⟩
  rw [heq, hm, backfillMsgs_eq hid]

/-- `x || y` is truthy when `y` is. -/
lemma jsOr_ne (x : Option (List Char)) {els : List Char}
    (h : els.isEmpty = false) : (jsOr x els).isEmpty = false := by
  cases x with
  | none => exact h
  | some v =>
      show (if v.isEmpty = true then els else v).isEmpty = false
      by_cases hv : v.isEmpty = true
      · rw [if_pos hv]
        exact h
      · rw [if_neg hv]
        simpa using hv

/-- The persistence step on a state with content: appends to the log,
keeps steps, streaming flag and visible content. -/
lemma finPersist_nonempty {Y : StreamState} (hTS : TurnShape Y)
    (p : RunParams) (hne : Y.fullContent.isEmpty = false) :
    stepsOf (finPersist p Y) = stepsOf Y ∧
    isStreamingOf (finPersist p Y) = isStreamingOf Y ∧
    (finPersist p Y).persisted = Y.persisted ++ [Y.fullContent] ∧
    contentOf (finPersist p Y) = contentOf Y := by
  unfold finPersist
  split
  · next hcond => rw [hne] at hcond; cases hcond
  · split
    · next dbId hdb =>
        obtain ⟨b1, b2, b3⟩ := shape_backfill
          ({ { Y with persisted := Y.persisted ++ [Y.fullContent] } with
              msgs := backfillMsgs aiTempId dbId Y.msgs } : StreamState)
          dbId hTS rfl
        exact ⟨b1, b2, rfl, b3⟩
    · next hdb =>
        obtain ⟨o1, o2, o3⟩ := obs_msgs_congr
          (show ({ Y with persisted := Y.persisted ++ [Y.fullContent] } :
            StreamState).msgs = Y.msgs from rfl)
        exact ⟨o1, o2, rfl, o3⟩

/-- The persistence step keeps an all-done, non-streaming turn all-done and
non-streaming, whatever the content. -/
lemma finPersist_keep {Y : StreamState} (hTS : TurnShape Y) (p : RunParams)
    (hdone : ∀ s ∈ stepsOf Y, s.status = Status.done)
    (hstr : isStreamingOf Y = some false) :
    (∀ s ∈ stepsOf (finPersist p Y), s.status = Status.done) ∧
    isStreamingOf (finPersist p Y) = some false := by
  by_cases hne : Y.fullContent.isEmpty = true
  · unfold finPersist
    rw [if_pos hne]
    exact ⟨hdone, hstr⟩
  · obtain ⟨t1, t2, -, -⟩ := finPersist_nonempty hTS p (by simpa using hne)
    constructor
    · intro s hs
      apply hdone
      rw [← t1]
      exact hs
    · rw [t2]
      exact hstr

/-- The fallback keeps the turn's shape, all-done steps and cleared
streaming flag. -/
lemma finFallback_keep {Y : StreamState} (hTS : TurnShape Y) (p : RunParams)
    (hdone : ∀ s ∈ stepsOf Y, s.status = Status.done)
    (hstr : isStreamingOf Y = some false) :
    TurnShape (finFallback p Y) ∧
    (∀ s ∈ stepsOf (finFallback p Y), s.status = Status.done) ∧
    isStreamingOf (finFallback p Y) = some false := by
  have hself : ∀ Z : StreamState, Z.msgs = Y.msgs →
      TurnShape Z ∧ (∀ s ∈ stepsOf Z, s.status = Status.done) ∧
      isStreamingOf Z = some false := by
    intro Z hz
    obtain ⟨o1, o2, -⟩ := obs_msgs_congr hz
    refine ⟨turnShape_of_msgs_eq hz hTS, ?_, o2.trans hstr⟩
    intro s hs
    apply hdone
    rw [← o1]
    exact hs
  have hpub : ∀ (full : List Char) (Z : StreamState),
      Z.msgs = publishMsgs aiTempId full Y.msgs →
      TurnShape Z ∧ (∀ s ∈ stepsOf Z, s.status = Status.done) ∧
      isStreamingOf Z = some false := by
    intro full Z hz
    obtain ⟨p1, p2, p3⟩ := shape_publish hTS hz
    refine ⟨turnShape_publishMsgs hTS hz, ?_, p3.trans hstr⟩
    intro s hs
    apply hdone
    rw [← p1]
    exact hs
  unfold finFallback
  split
  · split
    · split
      · exact hself _ rfl
      · exact hpub _ _ rfl
      · exact hself _ rfl
    · exact hself _ rfl
  · exact hself _ rfl

/-- The fallback is the identity when content accumulated. -/
lemma finFallback_nonempty {Y : StreamState} (p : RunParams)
    (hne : Y.fullContent.isEmpty = false) : finFallback p Y = Y := by
  unfold finFallback
  split
  · next hcond => rw [hne] at hcond; cases hcond
  · rfl

set_option maxHeartbeats 1000000 in
/-- The completion path, when at least one fragment accumulated: all steps
end `done`, `isStreaming` clears, the accumulated content stays visible and
is appended to the persisted log. -/
lemma finishStream_nonempty {st : StreamState} (h : TurnShape st)
    (p : RunParams) (hne : st.fullContent.isEmpty = false) :
    (∀ s ∈ stepsOf (finishStream p st), s.status = Status.done) ∧
    isStreamingOf (finishStream p st) = some false ∧
    (finishStream p st).persisted = st.persisted ++ [st.fullContent] ∧
    contentOf (finishStream p st) = contentOf st := by
  obtain ⟨hTS1, hdone1, hcont1, -⟩ := forceFinish_all_done h
  have hscal : scalars (forceFinishSteps st) = scalars st :=
    scalars_forceFold stepOrder st
  unfold scalars at hscal
  simp only [Prod.mk.injEq] at hscal
  obtain ⟨hfc, -, -, -, hper, -⟩ := hscal
  obtain ⟨hTS2, hsteps2, hstr2, hcont2⟩ := shape_clear
    ({ forceFinishSteps st with
        msgs := clearStreamingMsgs aiTempId (forceFinishSteps st).msgs } :
      StreamState) hTS1 rfl
  have hne2 : ({ forceFinishSteps st with
      msgs := clearStreamingMsgs aiTempId (forceFinishSteps st).msgs } :
        StreamState).fullContent.isEmpty = false := by
    show (forceFinishSteps st).fullContent.isEmpty = false
    rw [hfc]
    exact hne
  have hfin : finishStream p st = finPersist p
      ({ forceFinishSteps st with
          msgs := clearStreamingMsgs aiTempId (forceFinishSteps st).msgs } :
        StreamState) := by
    show finTail p _ = _
    unfold finTail
    rw [finFallback_nonempty p hne2]
  obtain ⟨t1, t2, t3, t4⟩ := finPersist_nonempty hTS2 p hne2
  rw [hfin]
  refine ⟨?_, ?_, ?_, ?_⟩
  · intro s hs
    apply hdone1
    rw [← hsteps2, ← t1]
    exact hs
  · rw [t2]
    exact hstr2
  · rw [t3]
    show (forceFinishSteps st).persisted
        ++ [(forceFinishSteps st).fullContent] = _
    rw [hper, hfc]
  · rw [t4]
    exact hcont2.trans hcont1

set_option maxHeartbeats 1000000 in
/-- On every normal completion, whatever the stream contained, every created
step ends `done` and `isStreaming` clears. -/
lemma finishStream_terminal {st : StreamState} (h : TurnShape st)
    (p : RunParams) :
    (∀ s ∈ stepsOf (finishStream p st), s.status = Status.done) ∧
    isStreamingOf (finishStream p st) = some false := by
  obtain ⟨hTS1, hdone1, -, -⟩ := forceFinish_all_done h
  obtain ⟨hTS2, hsteps2, hstr2, -⟩ := shape_clear
    ({ forceFinishSteps st with
        msgs := clearStreamingMsgs aiTempId (forceFinishSteps st).msgs } :
      StreamState) hTS1 rfl
  have hdone2 : ∀ s ∈ stepsOf ({ forceFinishSteps st with
      msgs := clearStreamingMsgs aiTempId (forceFinishSteps st).msgs } :
        StreamState), s.status = Status.done := by
    intro s hs
    apply hdone1
    rw [← hsteps2]
    exact hs
  obtain ⟨hTS3, hdone3, hstr3⟩ := finFallback_keep hTS2 p hdone2 hstr2
  have hfin : finishStream p st = finPersist p (finFallback p
      ({ forceFinishSteps st with
          msgs := clearStreamingMsgs aiTempId (forceFinishSteps st).msgs } :
        StreamState)) := rfl
  rw [hfin]
  exact finPersist_keep hTS3 p hdone3 hstr3

/-- **C3** (amended) On the *normal* termination path, every created step is
`done` (hence terminal) by the time `isStreaming` becomes false, whatever
the stream contained; on the *transport-failure* path, `isStreaming` also
becomes false but a step that was still `pending` (never activated) stays
`pending` — not terminal, as the counterexample shows. -/
theorem claim_C3 (evs : List Ev) (p : RunParams) :
    (∀ s ∈ stepsOf (runStream evs p), s.status = Status.done) ∧
    isStreamingOf (runStream evs p) = some false ∧
    (∀ sid : String,
      (sid, Status.pending) ∈ idStatuses (runEvents initState evs) →
      (sid, Status.pending) ∈ idStatuses (runStreamFail evs)) ∧
    isStreamingOf (runStreamFail evs) = some false := by
  have hTS := turnShape_runEvents evs
  obtain ⟨t1, t2⟩ := finishStream_terminal hTS p
  refine ⟨t1, t2, ?_, (failStream_facts hTS).2.1⟩
  intro sid hmem
  have hmap : idStatuses (runStreamFail evs)
      = (idStatuses (runEvents initState evs)).map
          (fun q => if q.2 = Status.running then (q.1, Status.error) else q) := by
    unfold idStatuses runStreamFail
    rw [(failStream_facts hTS).2.2.2, List.map_map, List.map_map]
    apply List.map_congr_left
    intro s _
    by_cases hs : s.status = Status.running <;> simp [Function.comp, hs]
  have himg : (fun q => if q.2 = Status.running then (q.1, Status.error) else q)
      ((sid, Status.pending) : String × Status) = (sid, Status.pending) := by
    dsimp only
    rw [if_neg (by decide : ¬(Status.pending = Status.running))]
  rw [hmap]
  have h3 := List.mem_map_of_mem
    (fun q => if q.2 = Status.running then (q.1, Status.error) else q) hmem
  rw [himg] at h3
  exact h3

/-- Witness for C3: the amended statement at concrete runs. -/
theorem claim_C3_witness :
    isStreamingOf (runStream [Ev.chunk hiChunk] noParams) = some false ∧
    isStreamingOf (runStreamFail []) = some false :=
  ⟨(claim_C3 [Ev.chunk hiChunk] noParams).2.1,
   (claim_C3 [] noParams).2.2.2⟩

/-! ## C2 — fragment accumulation round-trip -/

lemma firstJump_done (st : StreamState) : (firstJump st).done = st.done := by
  unfold firstJump
  split
  · rfl
  · dsimp only
    split
    · rw [activateStep_done]
      rfl
    · rfl

lemma firstJump_fullContent (st : StreamState) :
    (firstJump st).fullContent = st.fullContent := by
  unfold firstJump
  split
  · rfl
  · dsimp only
    split
    · rw [activateStep_fullContent]
      rfl
    · rfl

lemma firstJump_persisted (st : StreamState) :
    (firstJump st).persisted = st.persisted := by
  unfold firstJump
  split
  · rfl
  · dsimp only
    split
    · rw [activateStep_persisted]
      rfl
    · rfl

lemma procContent_done (st : StreamState) (f : List Char) :
    (procContent st f).done = st.done := by
  show (foldActivate (firstJump st) (detectStepsFromChunk f)).done = st.done
  rw [foldActivate_done, firstJump_done]

lemma procContent_fullContent (st : StreamState) (f : List Char) :
    (procContent st f).fullContent = st.fullContent ++ f := by
  show (foldActivate (firstJump st) (detectStepsFromChunk f)).fullContent ++ f
    = st.fullContent ++ f
  rw [foldActivate_fullContent, firstJump_fullContent]

lemma procContent_persisted (st : StreamState) (f : List Char) :
    (procContent st f).persisted = st.persisted := by
  show (foldActivate (firstJump st) (detectStepsFromChunk f)).persisted
    = st.persisted
  rw [foldActivate_persisted, firstJump_persisted]

lemma contentOf_procContent {st : StreamState} (h : TurnShape st)
    (f : List Char) :
    contentOf (procContent st f) = some (st.fullContent ++ f) := by
  have h2 : contentOf (procContent st f)
      = some ((foldActivate (firstJump st) (detectStepsFromChunk f)).fullContent
          ++ f) :=
    (shape_publish
      (turnShape_foldActivate (turnShape_firstJump h) (detectStepsFromChunk f))
      rfl).2.1
  rw [h2, foldActivate_fullContent, firstJump_fullContent]

/-- A record classified as a content record carries a non-empty fragment
(the truthiness check). -/
lemma lineKind_content_ne {l f : List Char}
    (h : lineKind l = LineKind.content f) : f.isEmpty = false := by
  unfold lineKind at h
  split at h
  · cases h
  · dsimp only at h
    split at h
    · cases h
    · split at h
      · cases h
      · cases h
      · split at h
        · cases h
        · split at h
          · cases h
          · split at h
            · split at h
              · cases h
              · next hne =>
                  cases h
                  simpa using hne
            · cases h

lemma procLine_content {st : StreamState} {l f : List Char}
    (hk : lineKind l = LineKind.content f) :
    procLine st l = procContent st f := by
  unfold procLine
  rw [hk]

lemma evStep_single_content {st : StreamState} {l f : List Char}
    (hnd : st.done = false) (hk : lineKind l = LineKind.content f)
    (hs : splitOnNN l = [l]) :
    evStep st (Ev.chunk l) = procContent st f := by
  have hnd2 : ¬(st.done = true) := by
    rw [hnd]
    decide
  show (if st.done then st else processLines st (splitOnNN l)) = _
  rw [if_neg hnd2, hs]
  show (if st.done then st else processLines (procLine st l) []) = _
  rw [if_neg hnd2]
  show procLine st l = _
  exact procLine_content hk

lemma evStep_doneOnly {st : StreamState} (hnd : st.done = false) :
    evStep st (Ev.chunk doneOnlyChunk) = { st with done := true } := by
  have hnd2 : ¬(st.done = true) := by
    rw [hnd]
    decide
  have hl : procLine st ("data: [DONE]".data) = { st with done := true } := by
    unfold procLine
    rw [show lineKind ("data: [DONE]".data) = LineKind.doneSig from by decide]
  show (if st.done then st else processLines st (splitOnNN doneOnlyChunk)) = _
  rw [if_neg hnd2,
    show splitOnNN doneOnlyChunk
      = ["data: [DONE]".data, ([] : List Char)] from by decide]
  show (if st.done then st
    else processLines (procLine st ("data: [DONE]".data)) [[]]) = _
  rw [if_neg hnd2, hl]
  show (if ({ st with done := true } : StreamState).done then _ else _) = _
  rw [if_pos rfl]

/-- Running a sequence of single-content-frame chunks accumulates exactly
the concatenation of the fragments, in order, publishing as it goes;
nothing else of the turn's bookkeeping changes. -/
lemma run_frags :
    ∀ (lines frags : List (List Char)) (st : StreamState),
      TurnShape st → st.done = false →
      contentOf st = some st.fullContent →
      lines.map lineKind = frags.map LineKind.content →
      (∀ l ∈ lines, splitOnNN l = [l]) →
      TurnShape (runEvents st (lines.map Ev.chunk)) ∧
      (runEvents st (lines.map Ev.chunk)).done = false ∧
      (runEvents st (lines.map Ev.chunk)).fullContent
        = st.fullContent ++ frags.flatten ∧
      (runEvents st (lines.map Ev.chunk)).persisted = st.persisted ∧
      contentOf (runEvents st (lines.map Ev.chunk))
        = some (runEvents st (lines.map Ev.chunk)).fullContent := by
  intro lines
  induction lines with
  | nil =>
      intro frags st hTS hnd hce hmap hsplit
      have hfr : frags = [] := by
        cases frags with
        | nil => rfl
        | cons f fs => simp at hmap
      subst hfr
      refine ⟨hTS, hnd, ?_, rfl, hce⟩
      show st.fullContent = st.fullContent ++ ([] : List (List Char)).flatten
      simp
  | cons l ls ih =>
      intro frags st hTS hnd hce hmap hsplit
      cases frags with
      | nil => simp at hmap
      | cons f fs =>
          simp only [List.map_cons, List.cons.injEq] at hmap
          obtain ⟨hk, hmap2⟩ := hmap
          have hstep : evStep st (Ev.chunk l) = procContent st f :=
            evStep_single_content hnd hk (hsplit l (List.mem_cons_self l ls))
          have hrun : runEvents st ((l :: ls).map Ev.chunk)
              = runEvents (procContent st f) (ls.map Ev.chunk) := by
            show ((Ev.chunk l :: ls.map Ev.chunk).foldl evStep st) = _
            rw [List.foldl_cons, hstep]
            rfl
          have hTS2 : TurnShape (procContent st f) := turnShape_procContent hTS f
          have hnd2 : (procContent st f).done = false := by
            rw [procContent_done, hnd]
          have hce2 : contentOf (procContent st f)
              = some (procContent st f).fullContent := by
            rw [contentOf_procContent hTS f, procContent_fullContent]
          obtain ⟨a1, a2, a3, a4, a5⟩ := ih fs (procContent st f) hTS2 hnd2 hce2
            hmap2 (fun l2 hl2 => hsplit l2 (List.mem_cons_of_mem l hl2))
          rw [hrun]
          refine ⟨a1, a2, ?_, ?_, a5⟩
          · rw [a3, procContent_fullContent, List.flatten_cons, List.append_assoc]
          · rw [a4, procContent_persisted]

/-- **C2** (amended) Round-trip: for every stream of single-frame chunks
each carrying one content fragment, closed by the end sentinel, the turn's
visible and persisted content is exactly the concatenation of the fragments
in arrival order (no loss, no reordering), the turn ends non-streaming with
all steps done — provided at least one fragment was emitted (the quoted
Hello-world scenario is the second conjunct).  With zero fragments the
fallback substitutes a placeholder instead (see the counterexample). -/
theorem claim_C2 :
    (∀ (lines frags : List (List Char)) (p : RunParams),
      lines.map lineKind = frags.map LineKind.content →
      (∀ l ∈ lines, splitOnNN l = [l]) →
      frags ≠ [] →
      contentOf (runStream (lines.map Ev.chunk ++ [Ev.chunk doneOnlyChunk]) p)
        = some frags.flatten ∧
      isStreamingOf
          (runStream (lines.map Ev.chunk ++ [Ev.chunk doneOnlyChunk]) p)
        = some false ∧
      (∀ s ∈ stepsOf
          (runStream (lines.map Ev.chunk ++ [Ev.chunk doneOnlyChunk]) p),
        s.status = Status.done) ∧
      (runStream (lines.map Ev.chunk ++ [Ev.chunk doneOnlyChunk]) p).persisted
        = [frags.flatten]) ∧
    (contentOf (runStream [Ev.chunk scenarioChunk] noParams)
        = some "Hello world".data ∧
      isStreamingOf (runStream [Ev.chunk scenarioChunk] noParams)
        = some false ∧
      (∀ s ∈ stepsOf (runStream [Ev.chunk scenarioChunk] noParams),
        s.status = Status.done) ∧
      (runStream [Ev.chunk scenarioChunk] noParams).persisted
        = ["Hello world".data]) := by
  constructor
  · intro lines frags p hmap hsplit hfr
    obtain ⟨r1, r2, r3, r4, r5⟩ := run_frags lines frags initState
      turnShape_initState rfl (by decide) hmap hsplit
    have hfull : (runEvents initState (lines.map Ev.chunk)).fullContent
        = frags.flatten := by
      rw [r3]
      rfl
    have hDstep : runEvents initState
        (lines.map Ev.chunk ++ [Ev.chunk doneOnlyChunk])
        = { runEvents initState (lines.map Ev.chunk) with done := true } := by
      show List.foldl evStep initState _ = _
      rw [List.foldl_append]
      exact evStep_doneOnly r2
    have hTSD : TurnShape ({ runEvents initState (lines.map Ev.chunk) with
        done := true } : StreamState) :=
      turnShape_of_msgs_eq rfl r1
    have hjoin_ne : frags.flatten.isEmpty = false := by
      cases frags with
      | nil => exact absurd rfl hfr
      | cons f fs =>
          have hf : f.isEmpty = false := by
            cases lines with
            | nil => simp at hmap
            | cons l ls =>
                simp only [List.map_cons, List.cons.injEq] at hmap
                exact lineKind_content_ne hmap.1
          rw [List.flatten_cons]
          cases hfe : f with
          | nil => rw [hfe] at hf; cases hf
          | cons c cs => rfl
    have hneD : ({ runEvents initState (lines.map Ev.chunk) with
        done := true } : StreamState).fullContent.isEmpty = false := by
      show (runEvents initState (lines.map Ev.chunk)).fullContent.isEmpty
        = false
      rw [hfull]
      exact hjoin_ne
    obtain ⟨f1, f2, f3, f4⟩ := finishStream_nonempty hTSD p hneD
    have hrs : runStream (lines.map Ev.chunk ++ [Ev.chunk doneOnlyChunk]) p
        = finishStream p ({ runEvents initState (lines.map Ev.chunk) with
            done := true } : StreamState) := by
      unfold runStream
      rw [hDstep]
    rw [hrs]
    refine ⟨?_, f2, f1, ?_⟩
    · rw [f4]
      have hcD : contentOf ({ runEvents initState (lines.map Ev.chunk) with
          done := true } : StreamState)
          = contentOf (runEvents initState (lines.map Ev.chunk)) :=
        (obs_msgs_congr rfl).2.2
      rw [hcD, r5, hfull]
    · rw [f3]
      show (runEvents initState (lines.map Ev.chunk)).persisted
          ++ [(runEvents initState (lines.map Ev.chunk)).fullContent] = _
      rw [r4, hfull]
      rfl
  · exact ⟨by decide, by decide, by decide, by decide⟩

/-- Witness for C2: the universal round-trip at a one-fragment stream. -/
theorem claim_C2_witness :
    contentOf (runStream
        ((["data: \x7b\"content\":\"Hello\"\x7d".data] : List (List Char)).map
            Ev.chunk ++ [Ev.chunk doneOnlyChunk]) noParams)
      = some (["Hello".data] : List (List Char)).flatten ∧
    (runStream
        ((["data: \x7b\"content\":\"Hello\"\x7d".data] : List (List Char)).map
            Ev.chunk ++ [Ev.chunk doneOnlyChunk]) noParams).persisted
      = [(["Hello".data] : List (List Char)).flatten] := by
  have h := claim_C2.1 ["data: \x7b\"content\":\"Hello\"\x7d".data] ["Hello".data]
    noParams (by decide) (by decide) (by decide)
  exact ⟨h.1, h.2.2.2⟩

/-! ## C4 — one step running at a time (signal-free flow) -/

lemma activateStep_activatedSteps (st : StreamState) (sid : String) :
    (activateStep st sid).activatedSteps
      = if st.activatedSteps.contains sid then st.activatedSteps
        else sid :: st.activatedSteps := by
  unfold activateStep
  split
  · rfl
  · rfl

/-- Unfolding of fragment processing over an arbitrary pre-state. -/
lemma procContent_eq (st : StreamState) (f : List Char) :
    procContent st f
      = { foldActivate (firstJump st) (detectStepsFromChunk f) with
          fullContent :=
            (foldActivate (firstJump st) (detectStepsFromChunk f)).fullContent
              ++ f,
          msgs := publishMsgs aiTempId
            ((foldActivate (firstJump st) (detectStepsFromChunk f)).fullContent
              ++ f)
            (foldActivate (firstJump st) (detectStepsFromChunk f)).msgs } := rfl

/-- Activating `writing` from the mid-jump configuration yields the started
configuration. -/
lemma activate_writing_config {stC : StreamState} (hTS : TurnShape stC)
    (hact : stC.activatedSteps = ["sections"])
    (hids : idStatuses stC
      = [("sections", Status.done), ("amendments", Status.pending),
         ("landmark", Status.pending), ("recent", Status.pending),
         ("writing", Status.pending)]) :
    (activateStep stC "writing").activatedSteps = ["writing", "sections"] ∧
    idStatuses (activateStep stC "writing") = configStarted := by
  have hc : ¬(stC.activatedSteps.contains "writing" = true) := by
    rw [hact]
    decide
  constructor
  · rw [activateStep_activatedSteps, if_neg hc, hact]
  · rw [idStatuses_activateStep hTS "writing", if_neg hc, hids]
    decide

/-- From the pending configuration, the first-content jump produces exactly
the started configuration. -/
lemma sfinv_firstJump_pending {st : StreamState} (hTS : TurnShape st)
    (hJ : Jinv st) (hrs : st.responseStarted = false)
    (hact : st.activatedSteps = ["sections"])
    (hids : idStatuses st = configPending) :
    (firstJump st).activatedSteps = ["writing", "sections"] ∧
    idStatuses (firstJump st) = configStarted := by
  have h0 : st.currentStepIndex = 0 := (hJ.1 hrs).2
  have hTSA : TurnShape ({ st with responseStarted := true } : StreamState) :=
    turnShape_of_msgs_eq rfl hTS
  unfold firstJump
  split
  · next h =>
      rw [hrs] at h
      exact absurd h (by decide)
  · dsimp only
    split
    · refine activate_writing_config ?_ ?_ ?_
      · exact turnShape_of_msgs_eq rfl
          (turnShape_completeStep hTSA (stepOrder.getD st.currentStepIndex "")
            none)
      · exact hact
      · show idStatuses (completeStep ({ st with responseStarted := true })
            (stepOrder.getD st.currentStepIndex "") none) = _
        rw [idStatuses_completeStep hTSA (stepOrder.getD st.currentStepIndex "")
          none]
        rw [show idStatuses ({ st with responseStarted := true } : StreamState)
          = idStatuses st from rfl]
        rw [hids, h0]
        decide
    · next h2 =>
        have hlt : st.currentStepIndex < stepOrder.length - 1 := by
          rw [h0]
          decide
        exact absurd hlt h2

/-- A signal-free fragment carries the state from one of the two
configurations into the started configuration. -/
lemma sfinv_procContent {st : StreamState} (h : SFInv st) {f : List Char}
    (hdet : detectStepsFromChunk f = []) : SFInv (procContent st f) := by
  obtain ⟨hTS, hJ, hcfg⟩ := h
  have hTSP : TurnShape (procContent st f) := turnShape_procContent hTS f
  have hJP : Jinv (procContent st f) := jinv_procContent hJ f
  have hTS2 : TurnShape (foldActivate (firstJump st) (detectStepsFromChunk f)) :=
    turnShape_foldActivate (turnShape_firstJump hTS) _
  have hsteps : stepsOf (procContent st f)
      = stepsOf (foldActivate (firstJump st) (detectStepsFromChunk f)) := by
    rw [procContent_eq st f]
    exact (shape_publish hTS2 rfl).1
  have hact2 : (procContent st f).activatedSteps
      = (firstJump st).activatedSteps := by
    show (foldActivate (firstJump st) (detectStepsFromChunk f)).activatedSteps
      = _
    rw [hdet]
    rfl
  have hids2 : idStatuses (procContent st f) = idStatuses (firstJump st) := by
    unfold idStatuses
    rw [hsteps, hdet]
    rfl
  rcases hcfg with ⟨hrs, hact, hids⟩ | ⟨hrs, hact, hids⟩
  · obtain ⟨ha, hi⟩ := sfinv_firstJump_pending hTS hJ hrs hact hids
    exact ⟨hTSP, hJP, Or.inr ⟨procContent_started st f, hact2.trans ha,
      hids2.trans hi⟩⟩
  · have hfj : firstJump st = st := by
      unfold firstJump
      rw [if_pos hrs]
    refine ⟨hTSP, hJP, Or.inr ⟨procContent_started st f, ?_, ?_⟩⟩
    · rw [hact2, hfj, hact]
    · rw [hids2, hfj, hids]

lemma sfinv_procLine {st : StreamState} (h : SFInv st) {l : List Char}
    (hl : ∀ f, lineKind l = LineKind.content f → detectStepsFromChunk f = []) :
    SFInv (procLine st l) := by
  unfold procLine
  cases hk : lineKind l with
  | skip => exact h
  | doneSig =>
      obtain ⟨hTS, hJ, hcfg⟩ := h
      exact ⟨turnShape_of_msgs_eq rfl hTS, hJ, hcfg⟩
  | content f => exact sfinv_procContent h (hl f hk)

lemma sfinv_processLines :
    ∀ (ls : List (List Char)) (st : StreamState), SFInv st →
      (∀ l ∈ ls, ∀ f, lineKind l = LineKind.content f →
        detectStepsFromChunk f = []) →
      SFInv (processLines st ls) := by
  intro ls
  induction ls with
  | nil =>
      intro st h _
      exact h
  | cons l ls ih =>
      intro st h hl
      show SFInv (if st.done then st else processLines (procLine st l) ls)
      split
      · exact h
      · exact ih (procLine st l)
          (sfinv_procLine h (hl l (List.mem_cons_self l ls)))
          (fun l2 h2 => hl l2 (List.mem_cons_of_mem l h2))

lemma sfinv_evStep {st : StreamState} (h : SFInv st) {e : Ev}
    (he : EvSigFree e = true) : SFInv (evStep st e) := by
  cases e with
  | chunk c =>
      show SFInv (if st.done then st else processLines st (splitOnNN c))
      split
      · exact h
      · apply sfinv_processLines (splitOnNN c) st h
        intro l hl f hf
        have he2 : ((splitOnNN c).all fun l2 =>
            match lineKind l2 with
            | LineKind.content f2 => (detectStepsFromChunk f2).isEmpty
            | _ => true) = true := he
        have hl2 := List.all_eq_true.mp he2 l hl
        rw [hf] at hl2
        exact List.isEmpty_iff.mp hl2
  | tick =>
      show SFInv (if st.done then st else tickFn st)
      split
      · exact h
      · rw [tickFn_noop h.2.1]
        exact h

lemma sfinv_runEvents :
    ∀ (evs : List Ev) (st : StreamState), SFInv st →
      evs.all EvSigFree = true → SFInv (runEvents st evs) := by
  intro evs
  induction evs with
  | nil =>
      intro st h _
      exact h
  | cons e es ih =>
      intro st h hall
      simp only [List.all_cons, Bool.and_eq_true] at hall
      show SFInv (runEvents (evStep st e) es)
      exact ih (evStep st e) (sfinv_evStep h hall.1) hall.2

lemma sfinv_initState : SFInv initState :=
  ⟨turnShape_initState, jinv_initState,
    Or.inl ⟨by decide, by decide, by decide⟩⟩

/-- `runningCount` through the id/status projection. -/
lemma runningCount_idStatuses (st : StreamState) :
    runningCount st
      = ((idStatuses st).filter fun q => q.2 = Status.running).length := by
  unfold runningCount idStatuses
  rw [List.filter_map, List.length_map]
  rfl

lemma sfinv_runningCount {st : StreamState} (h : SFInv st) :
    runningCount st ≤ 1 := by
  rw [runningCount_idStatuses]
  rcases h.2.2 with ⟨-, -, hids⟩ | ⟨-, -, hids⟩ <;> rw [hids] <;> decide

lemma runningCount_zero_of_done {st : StreamState}
    (h : ∀ s ∈ stepsOf st, s.status = Status.done) : runningCount st = 0 := by
  unfold runningCount
  rw [List.length_eq_zero, List.filter_eq_nil_iff]
  intro s hs
  rw [h s hs]
  decide

/-- **C4** (amended) In signal-free flow — no processed fragment triggers a
phase signal — at most one step is `running` after every event prefix, and
after normal completion no step is `running` at all.  (The unamended claim
fails on signal-carrying flow: see the counterexample, where an out-of-order
`PHASE 2` signal makes a second step run concurrently.) -/
theorem claim_C4 (evs : List Ev) (p : RunParams)
    (hsf : evs.all EvSigFree = true) :
    runningCount (runEvents initState evs) ≤ 1 ∧
    runningCount (runStream evs p) = 0 := by
  constructor
  · exact sfinv_runningCount (sfinv_runEvents evs initState sfinv_initState hsf)
  · exact runningCount_zero_of_done
      (finishStream_terminal (turnShape_runEvents evs) p).1

/-- Witness for C4: the signal-free single-fragment stream `"Hi"`. -/
theorem claim_C4_witness :
    [Ev.chunk hiChunk].all EvSigFree = true ∧
    runningCount (runEvents initState [Ev.chunk hiChunk]) ≤ 1 ∧
    runningCount (runStream [Ev.chunk hiChunk] noParams) = 0 :=
  ⟨by decide, claim_C4 [Ev.chunk hiChunk] noParams (by decide)⟩

end JuristMind
